import Mathlib

/-!
Verification of the convolutional FEC codec in `src/fec/src/fec_conv.c`
(liquid-dsp).  The C functions `fec_conv_create`, `fec_conv_encode`,
`fec_conv_decode` and `fec_conv_setlength` are embedded shallowly below.

Helper routines that `fec_conv.c` calls but that are not part of the
given source slice (the libfec Viterbi core `create/init/update/chainback`,
`parity`, `liquid_unpack_bytes`, `fec_get_enc_msg_length`, the generator
polynomial tables `fec_convXX_poly` and the `FEC_SOFTBIT_*` sentinels) are
modelled from the specification; each such definition is marked
`Modelled from the spec:` in its doc comment.

Machine integers are embedded as `Nat` with an explicit reduction
`% 2 ^ 32` (for C `unsigned int`, e.g. the shift register `sr`) and
`% 256` (for C `unsigned char`, e.g. `byte_out`) at every point where the
C code can overflow.  Byte buffers are `List Nat`; a write
`_msg_enc[n/8] = byte_out` becomes `List.set (n / 8)`.
-/

namespace FecConv

/-- Helper for `parity`: structural recursion on a fuel bound (the
value itself bounds the number of halving steps), so that the kernel
can evaluate it. -/
def parityAux : Nat → Nat → Nat
  | 0, _ => 0
  | _ + 1, 0 => 0
  | fuel + 1, x + 1 => ((x + 1) % 2 + parityAux fuel ((x + 1) / 2)) % 2

/-- Modelled from the spec: `parity()` (declared in `liquid.internal.h`,
not part of the source slice) returns the XOR-reduction, that is the
even-or-odd popcount, of its argument (spec section 4.1). -/
def parity (x : Nat) : Nat := parityAux x x

/-- The fec scheme identifiers dispatched on by `fec_conv_create`.
`FEC_UNKNOWN` stands for every identifier that reaches the `default`
branch of the `switch`. -/
inductive fec_scheme where
  | FEC_CONV_V27
  | FEC_CONV_V29
  | FEC_CONV_V39
  | FEC_CONV_V615
  | FEC_UNKNOWN
deriving DecidableEq, Repr

/-- Modelled from the spec: scheme catalog constraint length K
(spec section 6). -/
def fec_scheme_K : fec_scheme → Nat
  | .FEC_CONV_V27 => 7
  | .FEC_CONV_V29 => 9
  | .FEC_CONV_V39 => 9
  | .FEC_CONV_V615 => 15
  | .FEC_UNKNOWN => 0

/-- Modelled from the spec: scheme catalog number of output streams R
(spec section 6). -/
def fec_scheme_R : fec_scheme → Nat
  | .FEC_CONV_V27 => 2
  | .FEC_CONV_V29 => 2
  | .FEC_CONV_V39 => 3
  | .FEC_CONV_V615 => 6
  | .FEC_UNKNOWN => 0

/-- Modelled from the spec: `fec_get_enc_msg_length` (not in the source
slice), the encoded-length formula of spec section 6:
`encoded_bits = R * (8 * decoded_bytes + K - 1)`,
`encoded_bytes = ceil(encoded_bits / 8)`. -/
def fec_get_enc_msg_length (s : fec_scheme) (dec_msg_len : Nat) : Nat :=
  (fec_scheme_R s * (8 * dec_msg_len + fec_scheme_K s - 1) + 7) / 8

/-- The `struct fec_s` fields that `fec_conv.c` reads or writes.
The function-pointer fields (`encode_func`, ..., `delete_viterbi`) and
the `rate` field are omitted: dispatch is resolved statically here and
`rate` is never read in this file.  Allocation state is tracked by size:
`enc_bits = some l` models a buffer of `l` unsigned chars
(`none` models the NULL pointer), `vp = some fb` models a Viterbi
decoder created by `create_viterbi(fb)` (`none` models NULL), and
`num_enc_bytes = none` models the field being left uninitialized by
`fec_conv_create`. -/
structure fec where
  scheme : fec_scheme
  R : Nat
  K : Nat
  poly : List Nat
  num_dec_bytes : Nat
  num_enc_bytes : Option Nat
  enc_bits : Option Nat
  vp : Option Nat
deriving DecidableEq, Repr

/-- Result of `fec_conv_create`: the C code either returns the object or
calls `exit(1)` after printing an error; `processExit` records the
process-terminating branch. -/
inductive CreateResult where
  | ok (q : fec)
  | processExit (code : Nat)
deriving DecidableEq, Repr

/-- `fec_conv_init_v27`: sets R=2, K=7 and the `fec_conv27_poly` table
(the table itself is not in the source slice, so it is passed in). -/
def fec_conv_init_v27 (poly27 : List Nat) (q : fec) : fec :=
  { q with R := 2, K := 7, poly := poly27 }

/-- `fec_conv_init_v29`: sets R=2, K=9 and the `fec_conv29_poly` table. -/
def fec_conv_init_v29 (poly29 : List Nat) (q : fec) : fec :=
  { q with R := 2, K := 9, poly := poly29 }

/-- `fec_conv_init_v39`: sets R=3, K=9 and the `fec_conv39_poly` table. -/
def fec_conv_init_v39 (poly39 : List Nat) (q : fec) : fec :=
  { q with R := 3, K := 9, poly := poly39 }

/-- `fec_conv_init_v615`: sets R=6, K=15 and the `fec_conv615_poly` table. -/
def fec_conv_init_v615 (poly615 : List Nat) (q : fec) : fec :=
  { q with R := 6, K := 15, poly := poly615 }

/-- `fec_conv_create`.  The generator polynomial tables
`fec_conv27_poly` ... `fec_conv615_poly` are constants that are not part
of the source slice, so they are received as parameters.  The `malloc`
result starts with unspecified contents; every field the C code writes
before returning is set here, `num_enc_bytes` (which `fec_conv_create`
never writes) is `none` (uninitialized).  The `default:` branch prints
an error and calls `exit(1)`. -/
def fec_conv_create (poly27 poly29 poly39 poly615 : List Nat)
    (fs : fec_scheme) : CreateResult :=
  let q0 : fec :=
    { scheme := fs, R := 0, K := 0, poly := [],
      num_dec_bytes := 0, num_enc_bytes := none,
      enc_bits := none, vp := none }
  match fs with
  | .FEC_CONV_V27 => .ok (fec_conv_init_v27 poly27 q0)
  | .FEC_CONV_V29 => .ok (fec_conv_init_v29 poly29 q0)
  | .FEC_CONV_V39 => .ok (fec_conv_init_v39 poly39 q0)
  | .FEC_CONV_V615 => .ok (fec_conv_init_v615 poly615 q0)
  | .FEC_UNKNOWN => .processExit 1

/-- `fec_conv_setlength`: early-returns when the requested length equals
`num_dec_bytes`; otherwise stores the new lengths, deletes the old
Viterbi object if non-NULL, creates one for `8 * num_dec_bytes` frame
bits and reallocates `enc_bits` to `num_enc_bytes * 8` chars. -/
def fec_conv_setlength (q : fec) (dec_msg_len : Nat) : fec :=
  if dec_msg_len = q.num_dec_bytes then q
  else
    let neb := fec_get_enc_msg_length q.scheme dec_msg_len
    { q with
      num_dec_bytes := dec_msg_len,
      num_enc_bytes := some neb,
      vp := some (8 * dec_msg_len),
      enc_bits := some (neb * 8) }

/-! ## The encoder, `fec_conv_encode`

The local variables of the C function are gathered into `EncRun`;
the nested loops become folds.  The `while (n%8)` padding loop runs
exactly `(8 - n % 8) % 8` times, so it is a bounded fold here. -/

/-- Local state of `fec_conv_encode`: shift register `sr`
(`unsigned int`), output bit counter `n`, accumulator `byte_out`
(`unsigned char`) and the output buffer `_msg_enc`. -/
structure EncRun where
  sr : Nat
  n : Nat
  byte_out : Nat
  buf : List Nat
deriving DecidableEq, Repr

/-- One iteration of the inner polynomial loop of `fec_conv_encode`:
`byte_out = (byte_out<<1) | parity(sr & poly[r]); _msg_enc[n/8] = byte_out; n++`. -/
def conv_emit (st : EncRun) (p : Nat) : EncRun :=
  let b := ((st.byte_out <<< 1) ||| parity (st.sr &&& p)) % 256
  { st with byte_out := b, buf := st.buf.set (st.n / 8) b, n := st.n + 1 }

/-- The full inner loop `for (r=0; r<R; r++)` of `fec_conv_encode`,
reading `poly[r]` for each `r`. -/
def conv_emit_all (q : fec) (st : EncRun) : EncRun :=
  ((List.range q.R).map (fun r => q.poly.getD r 0)).foldl conv_emit st

/-- One input bit of `fec_conv_encode`:
`sr = (sr << 1) | bit;` followed by the polynomial loop. -/
def conv_push_bit (q : fec) (st : EncRun) (bit : Nat) : EncRun :=
  conv_emit_all q { st with sr := ((st.sr <<< 1) ||| bit) % 2 ^ 32 }

/-- One input byte of `fec_conv_encode`: the loop `for (j=0; j<8; j++)`
with `bit = (byte_in >> (7-j)) & 0x01`. -/
def conv_push_byte (q : fec) (st : EncRun) (byte_in : Nat) : EncRun :=
  (List.range 8).foldl (fun s j => conv_push_bit q s ((byte_in >>> (7 - j)) &&& 1)) st

/-- One tail step of `fec_conv_encode`: `sr = (sr << 1);` (push a zero,
no OR) followed by the polynomial loop. -/
def conv_tail_step (q : fec) (st : EncRun) : EncRun :=
  conv_emit_all q { st with sr := (st.sr <<< 1) % 2 ^ 32 }

/-- One iteration of the padding loop `while (n%8)` of `fec_conv_encode`:
`byte_out <<= 1; _msg_enc[n/8] = byte_out; n++`. -/
def conv_pad_step (st : EncRun) : EncRun :=
  let b := (st.byte_out <<< 1) % 256
  { st with byte_out := b, buf := st.buf.set (st.n / 8) b, n := st.n + 1 }

/-- The padding loop `while (n%8)` of `fec_conv_encode`, which runs
exactly `(8 - n % 8) % 8` times. -/
def conv_pad_run (st : EncRun) : EncRun :=
  (List.range ((8 - st.n % 8) % 8)).foldl (fun s _ => conv_pad_step s) st

/-- The body of `fec_conv_encode` run on the decoded message `msg_dec`
with caller-provided output buffer `msg_enc`: the message loop, the
`K - 1` tail steps, and the byte-alignment padding loop. -/
def fec_conv_encode_run (q : fec) (msg_dec : List Nat) (msg_enc : List Nat) : EncRun :=
  conv_pad_run
    ((List.range (q.K - 1)).foldl (fun s _ => conv_tail_step q s)
      (msg_dec.foldl (conv_push_byte q) { sr := 0, n := 0, byte_out := 0, buf := msg_enc }))

/-- `fec_conv_encode`: the final contents of the output buffer. -/
def fec_conv_encode (q : fec) (msg_dec : List Nat) (msg_enc : List Nat) : List Nat :=
  (fec_conv_encode_run q msg_dec msg_enc).buf

/-! ## Bit/byte packing helpers (proof-side characterizations) -/

/-- The value of a most-significant-bit-first bit list. -/
def packbyte (bs : List Nat) : Nat :=
  bs.foldl (fun a b => 2 * a + b) 0

/-- Pack a bit list into bytes, 8 bits per byte, MSB first (a final
partial chunk becomes one byte; the encoder always emits a multiple of
8 bits). -/
def packBytes : List Nat → List Nat
  | b0 :: b1 :: b2 :: b3 :: b4 :: b5 :: b6 :: b7 :: rest =>
      packbyte [b0, b1, b2, b3, b4, b5, b6, b7] :: packBytes rest
  | [] => []
  | l => [packbyte l]

/-- The 8 bits of a byte, most significant first, each extracted the way
`fec_conv_encode` reads them: `(byte >> (7-j)) & 0x01`. -/
def byte_bits (B : Nat) : List Nat :=
  (List.range 8).map (fun j => (B >>> (7 - j)) &&& 1)

/-- All bits of a byte sequence, MSB first within each byte. -/
def msg_bits (msg : List Nat) : List Nat :=
  (msg.map byte_bits).flatten

/-- Generic one-bit emit: the common effect of `conv_emit` (with the
parity bit already computed) and `conv_pad_step` (with bit 0) on the
`n`/`byte_out`/`buf` components. -/
def emit1 (st : EncRun) (v : Nat) : EncRun :=
  let b := (2 * st.byte_out + v) % 256
  { st with byte_out := b, buf := st.buf.set (st.n / 8) b, n := st.n + 1 }

/-- Emit a list of bits in order. -/
def emitAll (st : EncRun) (bits : List Nat) : EncRun :=
  bits.foldl emit1 st

/-- Overwrite consecutive positions of `buf` starting at index `i`. -/
def writeSeq (buf : List Nat) (i : Nat) : List Nat → List Nat
  | [] => buf
  | b :: bs => writeSeq (buf.set i b) (i + 1) bs

/-- The `R` parity bits the encoder emits for register contents `sr`. -/
def conv_out_bits (q : fec) (sr : Nat) : List Nat :=
  (List.range q.R).map (fun r => parity (sr &&& q.poly.getD r 0))

/-- Register-threaded form of the encoder bit production: pushing the
given input bits through the 32-bit shift register from value `sr`,
returning the final register value and the emitted bit stream. -/
def conv_steps (q : fec) (sr : Nat) : List Nat → Nat × List Nat
  | [] => (sr, [])
  | b :: bs =>
      let sr2 := (2 * sr + b) % 2 ^ 32
      let rest := conv_steps q sr2 bs
      (rest.1, conv_out_bits q sr2 ++ rest.2)

/-- The body-plus-tail bit stream of the encoder for message `msg`. -/
def conv_body (q : fec) (msg : List Nat) : List Nat :=
  (conv_steps q 0 (msg_bits msg ++ List.replicate (q.K - 1) 0)).2

/-- The complete bit stream `fec_conv_encode` emits for message `msg`:
message bits, the `K - 1` zero-flush tail, then zero padding to a byte
boundary. -/
def conv_stream (q : fec) (msg : List Nat) : List Nat :=
  conv_body q msg ++ List.replicate ((8 - (conv_body q msg).length % 8) % 8) 0

/-- Stated from the claim wording (C3): the body bit stream with an
unbounded register, `register = (register <<< 1) ||| bit`, one parity
bit per polynomial in declared order, input-bit-major. -/
def conv_claim_body (polys : List Nat) (sr : Nat) : List Nat → List Nat
  | [] => []
  | b :: bs =>
      polys.map (fun p => parity (((sr <<< 1) ||| b) &&& p)) ++
        conv_claim_body polys ((sr <<< 1) ||| b) bs

/-- Stated from the claim wording (C3/C4): the register value after the
claimed per-bit update over a bit list. -/
def conv_claim_reg (sr : Nat) : List Nat → Nat
  | [] => sr
  | b :: bs => conv_claim_reg ((sr <<< 1) ||| b) bs

/-- Stated from the claim wording (C4): the flush stream, `k` zero
pushes of the unbounded register, `R` parity bits per step. -/
def conv_claim_tail (polys : List Nat) (sr : Nat) : Nat → List Nat
  | 0 => []
  | k + 1 =>
      polys.map (fun p => parity ((sr <<< 1) &&& p)) ++
        conv_claim_tail polys (sr <<< 1) k

/-! ## The decoder, `fec_conv_decode`

The libfec Viterbi core (`create_viterbi*`, `init_viterbi*`,
`update_viterbi*_blk`, `chainback_viterbi*`) and `liquid_unpack_bytes`
are not part of the source slice; they are modelled from spec
sections 4.2-4.4.  Survivor memory is kept in register-exchange form:
the path metric table maps each trellis state to `some (metric,
reversed input-bit list of the winning path)` - the spec (section 3)
allows recording "the predecessor state (or equivalently the input bit
that produced the winning transition)"; `none` is the unreachable-state
sentinel (the spec's "large sentinel" initial metric). -/

/-- Modelled from the spec: hard-decision sentinel magnitude for
logical 0 (`FEC_SOFTBIT_0`, not in the source slice). -/
def FEC_SOFTBIT_0 : Nat := 0

/-- Modelled from the spec: hard-decision sentinel magnitude for
logical 1 (`FEC_SOFTBIT_1`, not in the source slice). -/
def FEC_SOFTBIT_1 : Nat := 255

/-- The hard-decision scaling applied by `fec_conv_decode`:
`enc_bits[k] ? FEC_SOFTBIT_1 : FEC_SOFTBIT_0`. -/
def conv_softbit (b : Nat) : Nat :=
  if b ≠ 0 then FEC_SOFTBIT_1 else FEC_SOFTBIT_0

/-- Modelled from the spec: `liquid_unpack_bytes` - unpack `num_bytes`
bytes into one symbol per bit, MSB first (matching the encoder and the
chainback packing direction, spec sections 4.1/4.3). -/
def liquid_unpack_bytes (bytes : List Nat) (num_bytes : Nat) : List Nat :=
  ((List.range num_bytes).map (fun i => byte_bits (bytes.getD i 0))).flatten

/-- Path-metric table: trellis state to `some (cumulative metric,
reversed survivor input-bit path)`, `none` for unreachable. -/
def PathMetrics : Type := Nat → Option (Nat × List Nat)

/-- Modelled from the spec: trellis branch output (spec section 4.2) -
the `R` parity bits the encoder would produce for a register holding
state `s` after input bit `b` is pushed, i.e. register word `2*s + b`. -/
def branch_out (q : fec) (s b : Nat) : List Nat :=
  (List.range q.R).map (fun r => parity ((2 * s + b) &&& q.poly.getD r 0))

/-- Modelled from the spec: branch metric (spec section 4.2) - sum over
the `R` streams of 0 when the expected bit matches the observed
hard-decision symbol and a fixed penalty of 1 otherwise. -/
def branch_metric (expected observed : List Nat) : Nat :=
  (List.zipWith
    (fun e o => if (if e = 0 then FEC_SOFTBIT_0 else FEC_SOFTBIT_1) = o then 0 else 1)
    expected observed).sum

/-- Modelled from the spec: `init_viterbi` (spec section 4.3 `reset`) -
every state gets the unreachable sentinel except the starting state,
whose metric is 0 with an empty survivor path. -/
def init_viterbi (starting_state : Nat) : PathMetrics :=
  fun s => if s = starting_state then some (0, []) else none

/-- One incoming-transition candidate (spec section 4.3 `update`):
`predecessor_path_metric + branch_metric`, survivor path extended by
the transition input bit. -/
def viterbi_cand (q : fec) (pm : PathMetrics) (g : List Nat) (p b : Nat) :
    Option (Nat × List Nat) :=
  match pm p with
  | none => none
  | some (m, path) => some (m + branch_metric (branch_out q p b) g, b :: path)

/-- Minimum of two candidates, deterministically preferring the first
on ties (spec section 4.3 tie-break policy). -/
def opt_min_tie0 :
    Option (Nat × List Nat) → Option (Nat × List Nat) → Option (Nat × List Nat)
  | none, o => o
  | some c, none => some c
  | some c₁, some c₂ => if c₁.1 ≤ c₂.1 then some c₁ else some c₂

/-- Modelled from the spec: one `update` time step (spec section 4.3).
A state `s` (LSB = the input bit of both incoming transitions) has the
two predecessors `s / 2` and `s / 2 + 2^(K-1) / 2`, which differ in
their oldest register bit; the new entry is the best incoming
candidate. -/
def viterbi_step (q : fec) (pm : PathMetrics) (g : List Nat) : PathMetrics :=
  fun s =>
    opt_min_tie0 (viterbi_cand q pm g (s / 2) (s % 2))
      (viterbi_cand q pm g (s / 2 + 2 ^ (q.K - 1) / 2) (s % 2))

/-- Modelled from the spec: `update_viterbi_blk` - apply `update` for
`nbits` symbol groups, group `t` being the `R` symbols
`syms[t*R .. t*R+R)`. -/
def update_viterbi_blk (q : fec) (syms : List Nat) (nbits : Nat)
    (pm : PathMetrics) : PathMetrics :=
  (List.range nbits).foldl
    (fun acc t => viterbi_step q acc ((List.range q.R).map (fun r => syms.getD (t * q.R + r) 0)))
    pm

/-- Modelled from the spec: `chainback_viterbi` (spec section 4.3) -
read the survivor path of `endstate`, reverse it into forward order,
keep `nbits` bits and pack them MSB-first into output bytes. -/
def chainback_viterbi (q : fec) (pm : PathMetrics) (nbits : Nat)
    (endstate : Nat) : List Nat :=
  match pm endstate with
  | none => []
  | some (_, revpath) => packBytes ((revpath.reverse).take nbits)

/-- `fec_conv_decode`: resize via `fec_conv_setlength`, unpack the
encoded bytes into one symbol per bit, apply the hard-decision scaling,
then `init_viterbi(vp, 0)`, `update_viterbi_blk(vp, enc_bits,
8*num_dec_bytes + K - 1)` and `chainback_viterbi(vp, msg_dec,
8*num_dec_bytes, 0)`.  The C function dereferences `enc_bits` and `vp`
and reads `num_enc_bytes` without any check; a call in which a buffer
is NULL, `num_enc_bytes` is uninitialized, or an allocated size is too
small for the accesses made is undefined behavior and is modelled as
`none`.  `conv_decode_post` is the part of `fec_conv_decode` after the
`fec_conv_setlength` call. -/
def conv_decode_post (q1 : fec) (msg_enc : List Nat) : Option (fec × List Nat) :=
  match q1.num_enc_bytes, q1.enc_bits, q1.vp with
  | some neb, some ebl, some fb =>
      if 8 * neb ≤ ebl ∧ 8 * q1.num_dec_bytes ≤ fb then
        some (q1, chainback_viterbi q1
          (update_viterbi_blk q1
            ((liquid_unpack_bytes msg_enc neb).map conv_softbit)
            (8 * q1.num_dec_bytes + q1.K - 1) (init_viterbi 0))
          (8 * q1.num_dec_bytes) 0)
      else none
  | _, _, _ => none

def fec_conv_decode (q : fec) (dec_msg_len : Nat) (msg_enc : List Nat) :
    Option (fec × List Nat) :=
  conv_decode_post (fec_conv_setlength q dec_msg_len) msg_enc

/-- The decoder working storage is exactly what `fec_conv_setlength`
allocates for decoded length `n`: `num_enc_bytes` holds the encoded
length, `enc_bits` has `num_enc_bytes * 8` chars and the Viterbi object
was created for `8 * n` frame bits. -/
def conv_ready (q : fec) (n : Nat) : Prop :=
  q.num_enc_bytes = some ((q.R * (8 * n + q.K - 1) + 7) / 8) ∧
  q.enc_bits = some (((q.R * (8 * n + q.K - 1) + 7) / 8) * 8) ∧
  q.vp = some (8 * n)

instance (q : fec) (n : Nat) : Decidable (conv_ready q n) := by
  unfold conv_ready; infer_instance

/-! ## Proof-side trellis description of the true (uncorrupted) path -/

/-- Trellis state after pushing the bits of `bs` starting from state
`s`, all modulo the `2^(K-1)` states. -/
def trellis_path (M s : Nat) (bs : List Nat) : Nat :=
  bs.foldl (fun t b => (2 * t + b) % M) s

/-- Branch outputs along the trellis path of `bs` from state `s`. -/
def trellis_outs (q : fec) (s : Nat) : List Nat → List Nat
  | [] => []
  | b :: bs => branch_out q s b ++ trellis_outs q ((2 * s + b) % 2 ^ (q.K - 1)) bs

/-- Branch outputs along the trellis path of `bs` from state `s`, one
`R`-symbol group per trellis step. -/
def trellis_groups (q : fec) (s : Nat) : List Nat → List (List Nat)
  | [] => []
  | b :: bs => branch_out q s b :: trellis_groups q ((2 * s + b) % 2 ^ (q.K - 1)) bs

/-! ## Concrete codecs used by the witnesses.
The generator polynomials of the deployed schemes are not part of the
source slice; the values below are sample tables satisfying the scheme
invariants (each fits in K bits, at least one is odd). -/

/-- A rate-1/2, K=7 codec as `fec_conv_setlength` leaves it after
sizing for decoded length 0. -/
def q27sized : fec :=
  { scheme := .FEC_CONV_V27, R := 2, K := 7, poly := [0x6d, 0x4f],
    num_dec_bytes := 0, num_enc_bytes := some 2, enc_bits := some 16,
    vp := some 0 }

/-- The rate-1/2, K=7 codec exactly as `fec_conv_create` returns it. -/
def q27fresh : fec :=
  { scheme := .FEC_CONV_V27, R := 2, K := 7, poly := [0x6d, 0x4f],
    num_dec_bytes := 0, num_enc_bytes := none, enc_bits := none,
    vp := none }

/-! ## Arithmetic and bit-level toolkit -/

theorem parityAux_congr (f1 : Nat) : ∀ (x f2 : Nat), x ≤ f1 → x ≤ f2 →
    parityAux f1 x = parityAux f2 x := by
  induction f1 with
  | zero =>
      intro x f2 h1 _
      have hx : x = 0 := by omega
      subst hx
      cases f2 with
      | zero => rfl
      | succ f2 => rfl
  | succ f1 ih =>
      intro x f2 h1 h2
      cases x with
      | zero =>
          cases f2 with
          | zero => rfl
          | succ f2 => rfl
      | succ x =>
          cases f2 with
          | zero => omega
          | succ f2 =>
              show ((x + 1) % 2 + parityAux f1 ((x + 1) / 2)) % 2 =
                ((x + 1) % 2 + parityAux f2 ((x + 1) / 2)) % 2
              rw [ih ((x + 1) / 2) f2 (by omega) (by omega)]

theorem parity_eq (x : Nat) :
    parity x = if x = 0 then 0 else (x % 2 + parity (x / 2)) % 2 := by
  cases x with
  | zero => rfl
  | succ y =>
      rw [if_neg (by omega)]
      show ((y + 1) % 2 + parityAux y ((y + 1) / 2)) % 2 = _
      rw [parityAux_congr y ((y + 1) / 2) ((y + 1) / 2) (by omega) (by omega)]
      rfl

theorem parity_lt_two (x : Nat) : parity x < 2 := by
  rw [parity_eq]
  split
  · omega
  · omega

theorem parity_two_mul_add (a b : Nat) (hb : b < 2) :
    parity (2 * a + b) = (b + parity a) % 2 := by
  rcases Nat.eq_zero_or_pos (2 * a + b) with h | h
  · have ha : a = 0 := by omega
    have hb0 : b = 0 := by omega
    subst ha; subst hb0
    simp [parity, parityAux]
  · rw [parity_eq, if_neg (by omega)]
    have h1 : (2 * a + b) % 2 = b := by omega
    have h2 : (2 * a + b) / 2 = a := by omega
    rw [h1, h2]

theorem lor_two_mul_add (a b : Nat) (hb : b < 2) : 2 * a ||| b = 2 * a + b := by
  apply Nat.eq_of_testBit_eq
  intro i
  cases i with
  | zero =>
      simp only [Nat.testBit_lor, Nat.testBit_zero]
      have h1 : (2 * a + b) % 2 = b := by omega
      have h2 : (2 * a) % 2 = 0 := by omega
      simp [h1, h2]
      omega
  | succ i =>
      rw [Nat.testBit_lor]
      simp only [Nat.testBit_succ]
      have h1 : 2 * a / 2 = a := by omega
      have h2 : (2 * a + b) / 2 = a := by omega
      have h3 : b / 2 = 0 := by omega
      rw [h1, h2, h3]
      simp

theorem land_decomp (a b : Nat) :
    a &&& b = 2 * (a / 2 &&& b / 2) + (a % 2) * (b % 2) := by
  apply Nat.eq_of_testBit_eq
  intro i
  have hc : (a % 2) * (b % 2) < 2 := by
    rcases Nat.mod_two_eq_zero_or_one a with h | h <;>
      rcases Nat.mod_two_eq_zero_or_one b with h' | h' <;> simp [h, h']
  cases i with
  | zero =>
      simp only [Nat.testBit_land, Nat.testBit_zero]
      have hmod : (2 * (a / 2 &&& b / 2) + a % 2 * (b % 2)) % 2 = a % 2 * (b % 2) := by
        omega
      rw [hmod]
      rcases Nat.mod_two_eq_zero_or_one a with h | h <;>
        rcases Nat.mod_two_eq_zero_or_one b with h' | h' <;>
          simp [h, h']
  | succ i =>
      rw [Nat.testBit_land]
      simp only [Nat.testBit_succ]
      have hdiv : (2 * (a / 2 &&& b / 2) + a % 2 * (b % 2)) / 2 = a / 2 &&& b / 2 := by
        omega
      rw [hdiv, Nat.testBit_land]

theorem land_mod_two_pow {p K : Nat} (hp : p < 2 ^ K) (x : Nat) :
    (x % 2 ^ K) &&& p = x &&& p := by
  apply Nat.eq_of_testBit_eq
  intro i
  simp only [Nat.testBit_land, Nat.testBit_mod_two_pow]
  by_cases h : i < K
  · simp [h]
  · have : p.testBit i = false :=
      Nat.testBit_lt_two_pow (lt_of_lt_of_le hp (Nat.pow_le_pow_right (by omega) (by omega)))
    simp [h, this]

theorem parity_distinguish {p : Nat} (hp : p % 2 = 1) (s : Nat) :
    parity ((2 * s + 1) &&& p) ≠ parity ((2 * s) &&& p) := by
  have h0 : (2 * s) &&& p = 2 * (s &&& p / 2) := by
    rw [land_decomp (2 * s) p]
    have h1 : 2 * s / 2 = s := by omega
    have h2 : 2 * s % 2 = 0 := by omega
    rw [h1, h2]; ring
  have h1 : (2 * s + 1) &&& p = 2 * (s &&& p / 2) + 1 := by
    rw [land_decomp (2 * s + 1) p]
    have h1 : (2 * s + 1) / 2 = s := by omega
    have h2 : (2 * s + 1) % 2 = 1 := by omega
    rw [h1, h2, hp]
  rw [h0, h1]
  have e0 : parity (2 * (s &&& p / 2)) = (0 + parity (s &&& p / 2)) % 2 := by
    have := parity_two_mul_add (s &&& p / 2) 0 (by omega)
    simpa using this
  have e1 : parity (2 * (s &&& p / 2) + 1) = (1 + parity (s &&& p / 2)) % 2 :=
    parity_two_mul_add _ 1 (by omega)
  have := parity_lt_two (s &&& p / 2)
  rw [e0, e1]
  omega

/-! ## The `emit` machinery: relating the encoder folds to the emitted
bit stream -/

theorem emitAll_append (st : EncRun) (xs ys : List Nat) :
    emitAll st (xs ++ ys) = emitAll (emitAll st xs) ys :=
  List.foldl_append ..

theorem emit1_sr (st : EncRun) (v : Nat) : (emit1 st v).sr = st.sr := rfl

theorem emitAll_sr (bits : List Nat) : ∀ st : EncRun, (emitAll st bits).sr = st.sr := by
  induction bits with
  | nil => intro st; rfl
  | cons b bs ih => intro st; rw [emitAll, List.foldl_cons, ← emitAll, ih, emit1_sr]

theorem emitAll_n (bits : List Nat) : ∀ st : EncRun, (emitAll st bits).n = st.n + bits.length := by
  induction bits with
  | nil => intro st; simp [emitAll]
  | cons b bs ih =>
      intro st
      rw [emitAll, List.foldl_cons, ← emitAll, ih]
      simp [emit1]
      omega

theorem emit1_set_sr (st : EncRun) (z v : Nat) :
    emit1 { st with sr := z } v = { emit1 st v with sr := z } := rfl

theorem emitAll_set_sr (bits : List Nat) : ∀ (st : EncRun) (z : Nat),
    emitAll { st with sr := z } bits = { emitAll st bits with sr := z } := by
  induction bits with
  | nil => intro st z; rfl
  | cons b bs ih =>
      intro st z
      show emitAll (emit1 { st with sr := z } b) bs = _
      rw [emit1_set_sr, ih]
      rfl

theorem conv_emit_eq (st : EncRun) (p : Nat) :
    conv_emit st p = emit1 st (parity (st.sr &&& p)) := by
  unfold conv_emit emit1
  rw [Nat.shiftLeft_eq, pow_one, mul_comm st.byte_out 2,
    lor_two_mul_add _ _ (parity_lt_two _)]

theorem foldl_conv_emit (ps : List Nat) : ∀ st : EncRun,
    ps.foldl conv_emit st = emitAll st (ps.map (fun p => parity (st.sr &&& p))) := by
  induction ps with
  | nil => intro st; rfl
  | cons p ps ih =>
      intro st
      rw [List.foldl_cons, List.map_cons, emitAll, List.foldl_cons, ← emitAll, ih,
        conv_emit_eq]
      have hsr : (emit1 st (parity (st.sr &&& p))).sr = st.sr := rfl
      rw [hsr]

theorem conv_emit_all_eq (q : fec) (st : EncRun) :
    conv_emit_all q st = emitAll st (conv_out_bits q st.sr) := by
  rw [conv_emit_all, foldl_conv_emit, conv_out_bits, List.map_map]
  rfl

theorem conv_push_bit_eq (q : fec) (st : EncRun) (bit : Nat) (hb : bit < 2) :
    conv_push_bit q st bit =
      emitAll { st with sr := (2 * st.sr + bit) % 2 ^ 32 }
        (conv_out_bits q ((2 * st.sr + bit) % 2 ^ 32)) := by
  rw [conv_push_bit, conv_emit_all_eq]
  rw [Nat.shiftLeft_eq, pow_one, mul_comm st.sr 2, lor_two_mul_add _ _ hb]

theorem conv_out_bits_length (q : fec) (sr : Nat) :
    (conv_out_bits q sr).length = q.R := by
  simp [conv_out_bits]

theorem conv_out_bits_lt (q : fec) (sr : Nat) :
    ∀ b ∈ conv_out_bits q sr, b < 2 := by
  intro b hb
  simp only [conv_out_bits, List.mem_map] at hb
  obtain ⟨r, _, rfl⟩ := hb
  exact parity_lt_two _

theorem byte_bits_length (B : Nat) : (byte_bits B).length = 8 := by
  simp [byte_bits]

theorem byte_bits_lt (B : Nat) : ∀ b ∈ byte_bits B, b < 2 := by
  intro b hb
  simp only [byte_bits, List.mem_map] at hb
  obtain ⟨j, _, rfl⟩ := hb
  rw [Nat.and_one_is_mod]
  omega

theorem msg_bits_cons (B : Nat) (ms : List Nat) :
    msg_bits (B :: ms) = byte_bits B ++ msg_bits ms := by
  simp [msg_bits]

theorem msg_bits_length (msg : List Nat) : (msg_bits msg).length = 8 * msg.length := by
  induction msg with
  | nil => rfl
  | cons B ms ih =>
      rw [msg_bits_cons, List.length_append, byte_bits_length, ih, List.length_cons]
      ring

theorem msg_bits_lt (msg : List Nat) : ∀ b ∈ msg_bits msg, b < 2 := by
  induction msg with
  | nil => intro b hb; simp [msg_bits] at hb
  | cons B ms ih =>
      intro b hb
      rw [msg_bits_cons, List.mem_append] at hb
      rcases hb with hb | hb
      · exact byte_bits_lt B b hb
      · exact ih b hb

theorem conv_steps_snd_length (q : fec) (bits : List Nat) : ∀ sr : Nat,
    (conv_steps q sr bits).2.length = bits.length * q.R := by
  induction bits with
  | nil => intro sr; simp [conv_steps]
  | cons b bs ih =>
      intro sr
      simp only [conv_steps, List.length_append, conv_out_bits_length, ih,
        List.length_cons]
      ring

theorem conv_steps_snd_lt (q : fec) (bits : List Nat) : ∀ sr : Nat,
    ∀ b ∈ (conv_steps q sr bits).2, b < 2 := by
  induction bits with
  | nil => intro sr b hb; simp [conv_steps] at hb
  | cons x xs ih =>
      intro sr b hb
      simp only [conv_steps, List.mem_append] at hb
      rcases hb with hb | hb
      · exact conv_out_bits_lt _ _ _ hb
      · exact ih _ b hb

theorem conv_steps_append (q : fec) (xs : List Nat) : ∀ (ys : List Nat) (sr : Nat),
    conv_steps q sr (xs ++ ys) =
      ((conv_steps q (conv_steps q sr xs).1 ys).1,
        (conv_steps q sr xs).2 ++ (conv_steps q (conv_steps q sr xs).1 ys).2) := by
  induction xs with
  | nil => intro ys sr; simp [conv_steps]
  | cons x xs ih =>
      intro ys sr
      show ((conv_steps q ((2 * sr + x) % 2 ^ 32) (xs ++ ys)).1,
          conv_out_bits q ((2 * sr + x) % 2 ^ 32) ++
            (conv_steps q ((2 * sr + x) % 2 ^ 32) (xs ++ ys)).2) = _
      rw [ih]
      simp [conv_steps, List.append_assoc]

theorem foldl_push_bits (q : fec) (bits : List Nat) : ∀ st : EncRun,
    (∀ b ∈ bits, b < 2) →
    bits.foldl (conv_push_bit q) st =
      { emitAll st (conv_steps q st.sr bits).2 with
        sr := (conv_steps q st.sr bits).1 } := by
  induction bits with
  | nil => intro st _; rfl
  | cons b bs ih =>
      intro st hb
      have hb2 : b < 2 := hb b (List.mem_cons_self _ _)
      rw [List.foldl_cons, conv_push_bit_eq q st b hb2, emitAll_set_sr,
        ih _ (fun x hx => hb x (List.mem_cons_of_mem _ hx))]
      simp only [conv_steps]
      rw [emitAll_set_sr, emitAll_append]

theorem conv_tail_step_eq (q : fec) (st : EncRun) :
    conv_tail_step q st = conv_push_bit q st 0 := by
  rw [conv_tail_step, conv_push_bit]
  simp

theorem foldl_replicate_range (m : Nat) (g : EncRun → Nat → EncRun) :
    ∀ st : EncRun,
    (List.replicate m 0).foldl g st = (List.range m).foldl (fun s _ => g s 0) st := by
  induction m with
  | zero => intro st; rfl
  | succ m ih =>
      intro st
      rw [List.replicate_succ, List.foldl_cons, ih, List.range_succ_eq_map,
        List.foldl_cons, List.foldl_map]

theorem conv_push_byte_eq (q : fec) (st : EncRun) (B : Nat) :
    conv_push_byte q st B = (byte_bits B).foldl (conv_push_bit q) st := by
  rw [conv_push_byte, byte_bits, List.foldl_map]

theorem foldl_push_bytes (q : fec) (msg : List Nat) : ∀ st : EncRun,
    msg.foldl (conv_push_byte q) st = (msg_bits msg).foldl (conv_push_bit q) st := by
  induction msg with
  | nil => intro st; rfl
  | cons B ms ih =>
      intro st
      rw [List.foldl_cons, msg_bits_cons, List.foldl_append, ← ih,
        conv_push_byte_eq]

theorem conv_pad_step_eq (st : EncRun) : conv_pad_step st = emit1 st 0 := by
  rw [conv_pad_step, emit1]
  simp [Nat.shiftLeft_eq, mul_comm]

theorem foldl_emit1 (st : EncRun) (bits : List Nat) :
    bits.foldl emit1 st = emitAll st bits := rfl

/-- Master characterization of the encoder run: the C loops emit exactly
the bit stream `conv_stream q msg` through the byte-packing machinery. -/
theorem fec_conv_encode_run_eq (q : fec) (msg buf : List Nat) :
    fec_conv_encode_run q msg buf =
      { emitAll { sr := 0, n := 0, byte_out := 0, buf := buf } (conv_stream q msg)
        with sr := (conv_steps q 0 (msg_bits msg ++ List.replicate (q.K - 1) 0)).1 } := by
  have hbs : ∀ b ∈ msg_bits msg ++ List.replicate (q.K - 1) 0, b < 2 := by
    intro b hb
    rcases List.mem_append.mp hb with hb | hb
    · exact msg_bits_lt msg b hb
    · rw [List.eq_of_mem_replicate hb]; omega
  rw [fec_conv_encode_run, foldl_push_bytes]
  simp only [conv_tail_step_eq]
  rw [← foldl_replicate_range (q.K - 1) (conv_push_bit q), ← List.foldl_append,
    foldl_push_bits q _ _ hbs]
  rw [conv_pad_run]
  simp only [conv_pad_step_eq]
  rw [← foldl_replicate_range _ emit1, foldl_emit1, emitAll_set_sr]
  rw [emitAll_n, ← emitAll_append]
  rw [conv_stream, conv_body]
  rw [Nat.zero_add]

/-! ## From emitted bits to packed bytes in the output buffer -/

theorem packbyte_acc (c : List Nat) : ∀ a : Nat,
    c.foldl (fun x b => 2 * x + b) a = a * 2 ^ c.length + packbyte c := by
  induction c with
  | nil => intro a; simp [packbyte]
  | cons b c ih =>
      intro a
      have hpb : packbyte (b :: c) = b * 2 ^ c.length + packbyte c := by
        show c.foldl (fun x b => 2 * x + b) (2 * 0 + b) = _
        rw [ih]
        ring_nf
      rw [List.foldl_cons, ih, hpb, List.length_cons]
      ring

theorem packbyte_lt (c : List Nat) (hc : ∀ b ∈ c, b < 2) :
    packbyte c < 2 ^ c.length := by
  induction c with
  | nil => simp [packbyte]
  | cons b c ih =>
      have hb : b < 2 := hc b (List.mem_cons_self _ _)
      have hc' := ih (fun x hx => hc x (List.mem_cons_of_mem _ hx))
      have hpb : packbyte (b :: c) = b * 2 ^ c.length + packbyte c := by
        show c.foldl (fun x b => 2 * x + b) (2 * 0 + b) = _
        rw [packbyte_acc]
        ring_nf
      rw [hpb, List.length_cons, pow_succ]
      nlinarith

theorem emit1_mk (sr n B : Nat) (buf : List Nat) (b : Nat) :
    emit1 ⟨sr, n, B, buf⟩ b =
      ⟨sr, n + 1, (2 * B + b) % 256, buf.set (n / 8) ((2 * B + b) % 256)⟩ := rfl

theorem emitAll_partial (c : List Nat) : ∀ (sr n B : Nat) (buf : List Nat) (i k : Nat),
    n = 8 * i + k → k + c.length ≤ 8 → c ≠ [] →
    emitAll ⟨sr, n, B, buf⟩ c =
      ⟨sr, n + c.length, (B * 2 ^ c.length + packbyte c) % 256,
        buf.set i ((B * 2 ^ c.length + packbyte c) % 256)⟩ := by
  induction c with
  | nil => intro sr n B buf i k hn hk hne; exact absurd rfl hne
  | cons b c ih =>
      intro sr n B buf i k hn hk _
      have hk7 : k ≤ 7 := by
        have : (b :: c).length = c.length + 1 := rfl
        omega
      have hidx : n / 8 = i := by omega
      have hval : ∀ L P : Nat, ((2 * B + b) % 256 * 2 ^ L + P) % 256 =
          (B * 2 ^ (L + 1) + (b * 2 ^ L + P)) % 256 := by
        intro L P
        conv_lhs => rw [Nat.add_mod, Nat.mod_mul_mod, ← Nat.add_mod]
        congr 1
        ring
      have hpb : packbyte (b :: c) = b * 2 ^ c.length + packbyte c := by
        show c.foldl (fun x b => 2 * x + b) (2 * 0 + b) = _
        rw [packbyte_acc]
        ring_nf
      by_cases hc : c = []
      · subst hc
        show emit1 ⟨sr, n, B, buf⟩ b = _
        rw [emit1_mk, hidx]
        have h1 : packbyte [b] = b := by simp [packbyte]
        have h2 : (2 * B + b) % 256 = (B * 2 ^ ([b] : List Nat).length + packbyte [b]) % 256 := by
          rw [h1]
          norm_num
          ring_nf
        rw [h2]
        rfl
      · show emitAll (emit1 ⟨sr, n, B, buf⟩ b) c = _
        rw [emit1_mk, hidx, ih _ _ _ _ i (k + 1) (by omega) (by
          have : c.length + 1 = (b :: c).length := rfl
          omega) hc]
        rw [List.set_set, hval, ← hpb]
        have hlen : (b :: c).length = c.length + 1 := rfl
        rw [hlen]
        have hn' : n + 1 + c.length = n + (c.length + 1) := by omega
        rw [hn']

theorem packBytes_nil : packBytes [] = [] := rfl

theorem packBytes_cons (bits : List Nat) (h : bits ≠ []) :
    packBytes bits = packbyte (bits.take 8) :: packBytes (bits.drop 8) := by
  rcases bits with _ | ⟨b0, _ | ⟨b1, _ | ⟨b2, _ | ⟨b3, _ | ⟨b4, _ | ⟨b5, _ |
    ⟨b6, _ | ⟨b7, rest⟩⟩⟩⟩⟩⟩⟩⟩
  · exact absurd rfl h
  all_goals rfl

theorem packBytes_length (L : Nat) : ∀ bits : List Nat, bits.length = L →
    (packBytes bits).length = (L + 7) / 8 := by
  induction L using Nat.strong_induction_on with
  | _ L ih =>
      intro bits hL
      by_cases h : bits = []
      · subst h
        rw [packBytes_nil]
        simp at hL ⊢
        omega
      · rw [packBytes_cons _ h, List.length_cons,
          ih (bits.length - 8) (by
            have : bits.length ≠ 0 := fun hc => h (List.eq_nil_of_length_eq_zero hc)
            omega) _ (by simp)]
        have : bits.length ≠ 0 := fun hc => h (List.eq_nil_of_length_eq_zero hc)
        omega

theorem writeSeq_cons_succ (bs : List Nat) : ∀ (x : Nat) (buf : List Nat) (i : Nat),
    writeSeq (x :: buf) (i + 1) bs = x :: writeSeq buf i bs := by
  induction bs with
  | nil => intro x buf i; rfl
  | cons b bs ih =>
      intro x buf i
      show writeSeq ((x :: buf).set (i + 1) b) (i + 2) bs = _
      have : (x :: buf).set (i + 1) b = x :: buf.set i b := rfl
      rw [this, ih]
      rfl

theorem writeSeq_zero (bs : List Nat) : ∀ buf : List Nat, bs.length ≤ buf.length →
    writeSeq buf 0 bs = bs ++ buf.drop bs.length := by
  induction bs with
  | nil => intro buf _; rfl
  | cons b bs ih =>
      intro buf h
      cases buf with
      | nil => simp at h
      | cons y buf' =>
          have hlen : bs.length ≤ buf'.length := by
            simp at h
            omega
          show writeSeq ((y :: buf').set 0 b) (0 + 1) bs = _
          have hset : (y :: buf').set 0 b = b :: buf' := rfl
          rw [hset, writeSeq_cons_succ, ih buf' hlen]
          rfl

theorem emitAll_bytes (L : Nat) : ∀ (bits : List Nat), bits.length = L →
    ∀ (sr n B : Nat) (buf : List Nat) (i : Nat), n = 8 * i → 8 ∣ L →
    (∀ b ∈ bits, b < 2) →
    (emitAll ⟨sr, n, B, buf⟩ bits).buf = writeSeq buf i (packBytes bits) := by
  induction L using Nat.strong_induction_on with
  | _ L ih =>
      intro bits hL sr n B buf i hn hdvd hbits
      by_cases h : bits = []
      · subst h
        rw [packBytes_nil]
        rfl
      · have hlen0 : bits.length ≠ 0 := fun hc => h (List.eq_nil_of_length_eq_zero hc)
        have hlen8 : 8 ≤ bits.length := by
          rcases hdvd with ⟨w, rfl⟩
          omega
        have htake : (bits.take 8).length = 8 := by
          rw [List.length_take]
          omega
        have hpc : packbyte (bits.take 8) < 256 := by
          have := packbyte_lt (bits.take 8)
            (fun x hx => hbits x (List.take_subset 8 bits hx))
          rw [htake] at this
          exact this
        rw [← List.take_append_drop 8 bits, emitAll_append,
          emitAll_partial _ sr n B buf i 0 (by omega) (by omega) (by
            intro hc
            rw [hc] at htake
            simp at htake)]
        rw [htake]
        have hmod : (B * 2 ^ 8 + packbyte (bits.take 8)) % 256 = packbyte (bits.take 8) := by
          have h28 : (2 : Nat) ^ 8 = 256 := by norm_num
          rw [h28]
          omega
        rw [hmod]
        rw [ih (L - 8) (by omega) (bits.drop 8) (by simp; omega) sr (n + 8)
          (packbyte (bits.take 8)) (buf.set i (packbyte (bits.take 8))) (i + 1)
          (by omega) (by rcases hdvd with ⟨w, rfl⟩; cases w with
            | zero => omega
            | succ w => exact ⟨w, by omega⟩)
          (fun x hx => hbits x (List.drop_subset 8 bits hx))]
        rw [List.take_append_drop]
        rw [packBytes_cons _ h]
        rfl

theorem conv_body_length (q : fec) (msg : List Nat) :
    (conv_body q msg).length = (8 * msg.length + (q.K - 1)) * q.R := by
  rw [conv_body, conv_steps_snd_length, List.length_append, msg_bits_length,
    List.length_replicate]

theorem conv_body_lt (q : fec) (msg : List Nat) : ∀ b ∈ conv_body q msg, b < 2 := by
  intro b hb
  exact conv_steps_snd_lt q _ _ b hb

theorem conv_stream_length (q : fec) (msg : List Nat) (hK : 1 ≤ q.K) :
    (conv_stream q msg).length = 8 * ((q.R * (8 * msg.length + q.K - 1) + 7) / 8) := by
  rw [conv_stream, List.length_append, List.length_replicate, conv_body_length]
  have hc : (8 * msg.length + (q.K - 1)) * q.R = q.R * (8 * msg.length + q.K - 1) := by
    have : 8 * msg.length + (q.K - 1) = 8 * msg.length + q.K - 1 := by omega
    rw [this]
    ring
  rw [hc]
  omega

theorem conv_stream_lt (q : fec) (msg : List Nat) : ∀ b ∈ conv_stream q msg, b < 2 := by
  intro b hb
  rcases List.mem_append.mp hb with hb | hb
  · exact conv_body_lt q msg b hb
  · rw [List.eq_of_mem_replicate hb]
    omega

/-- The buffer after `fec_conv_encode`: the packed stream overwrites the
first `encoded_bytes` positions and the rest of the buffer is kept. -/
theorem fec_conv_encode_chars (q : fec) (msg buf : List Nat) (hK : 1 ≤ q.K)
    (hbuf : (q.R * (8 * msg.length + q.K - 1) + 7) / 8 ≤ buf.length) :
    fec_conv_encode q msg buf =
      packBytes (conv_stream q msg) ++
        buf.drop ((q.R * (8 * msg.length + q.K - 1) + 7) / 8) := by
  have hsl := conv_stream_length q msg hK
  have hpl : (packBytes (conv_stream q msg)).length =
      (q.R * (8 * msg.length + q.K - 1) + 7) / 8 := by
    rw [packBytes_length (conv_stream q msg).length _ rfl, hsl]
    omega
  rw [fec_conv_encode, fec_conv_encode_run_eq]
  show (emitAll ⟨0, 0, 0, buf⟩ (conv_stream q msg)).buf = _
  rw [emitAll_bytes (conv_stream q msg).length _ rfl 0 0 0 buf 0 (by omega)
    ⟨_, hsl⟩ (conv_stream_lt q msg)]
  rw [writeSeq_zero _ _ (by omega), hpl]

/-- The final output bit counter of `fec_conv_encode` (the C `assert`). -/
theorem fec_conv_encode_run_n (q : fec) (msg buf : List Nat) :
    (fec_conv_encode_run q msg buf).n = (conv_stream q msg).length := by
  rw [fec_conv_encode_run_eq]
  show (emitAll ⟨0, 0, 0, buf⟩ (conv_stream q msg)).n = _
  rw [emitAll_n]
  simp

/-! ## The emitted stream in terms of the claim wording (unbounded
register) -/

theorem range_map_getD {α β : Type} (l : List α) (d : α) (f : α → β) :
    (List.range l.length).map (fun r => f (l.getD r d)) = l.map f := by
  apply List.ext_getElem
  · simp
  · intro i h1 h2
    have h3 : i < l.length := by simpa using h1
    simp only [List.getElem_map, List.getElem_range]
    rw [List.getD_eq_getElem l d h3]

theorem conv_out_bits_poly (q : fec) (hlen : q.poly.length = q.R) (sr : Nat) :
    conv_out_bits q sr = q.poly.map (fun p => parity (sr &&& p)) := by
  rw [conv_out_bits, ← hlen, range_map_getD q.poly 0 (fun p => parity (sr &&& p))]

theorem mod_word_step (u b : Nat) :
    (2 * (u % 2 ^ 32) + b) % 2 ^ 32 = (2 * u + b) % 2 ^ 32 := by
  have h : (2 : Nat) ^ 32 = 4294967296 := by norm_num
  rw [h]
  omega

theorem conv_steps_eq_claim (q : fec) (hlen : q.poly.length = q.R)
    (hfit : ∀ p ∈ q.poly, p < 2 ^ 32) (bits : List Nat) :
    ∀ u : Nat, (∀ b ∈ bits, b < 2) →
    (conv_steps q (u % 2 ^ 32) bits).2 = conv_claim_body q.poly u bits ∧
    (conv_steps q (u % 2 ^ 32) bits).1 = conv_claim_reg u bits % 2 ^ 32 := by
  induction bits with
  | nil => intro u _; exact ⟨rfl, rfl⟩
  | cons b bs ih =>
      intro u hb
      have hb2 : b < 2 := hb b (List.mem_cons_self _ _)
      have hsr : ((u <<< 1) ||| b) = 2 * u + b := by
        rw [Nat.shiftLeft_eq, pow_one, mul_comm u 2, lor_two_mul_add _ _ hb2]
      have hstep : (2 * (u % 2 ^ 32) + b) % 2 ^ 32 = (2 * u + b) % 2 ^ 32 :=
        mod_word_step u b
      have hout : conv_out_bits q ((2 * u + b) % 2 ^ 32) =
          q.poly.map (fun p => parity (((u <<< 1) ||| b) &&& p)) := by
        rw [conv_out_bits_poly q hlen, hsr]
        apply List.map_congr_left
        intro p hp
        rw [land_mod_two_pow (hfit p hp)]
      obtain ⟨ih1, ih2⟩ := ih (2 * u + b) (fun x hx => hb x (List.mem_cons_of_mem _ hx))
      constructor
      · show conv_out_bits q ((2 * (u % 2 ^ 32) + b) % 2 ^ 32) ++
          (conv_steps q ((2 * (u % 2 ^ 32) + b) % 2 ^ 32) bs).2 = _
        rw [hstep, hout, ih1]
        show _ = q.poly.map _ ++ conv_claim_body q.poly ((u <<< 1) ||| b) bs
        rw [hsr]
      · show (conv_steps q ((2 * (u % 2 ^ 32) + b) % 2 ^ 32) bs).1 = _
        rw [hstep, ih2]
        show _ = conv_claim_reg ((u <<< 1) ||| b) bs % 2 ^ 32
        rw [hsr]

theorem conv_claim_tail_eq (q : fec) (hlen : q.poly.length = q.R)
    (hfit : ∀ p ∈ q.poly, p < 2 ^ 32) (k : Nat) :
    ∀ u : Nat,
    (conv_steps q (u % 2 ^ 32) (List.replicate k 0)).2 = conv_claim_tail q.poly u k := by
  induction k with
  | zero => intro u; rfl
  | succ k ih =>
      intro u
      have hsr : (u <<< 1) = 2 * u + 0 := by
        rw [Nat.shiftLeft_eq, pow_one, mul_comm u 2]
        omega
      have hstep := mod_word_step u 0
      have hout : conv_out_bits q ((2 * u + 0) % 2 ^ 32) =
          q.poly.map (fun p => parity ((u <<< 1) &&& p)) := by
        rw [conv_out_bits_poly q hlen, hsr]
        apply List.map_congr_left
        intro p hp
        rw [land_mod_two_pow (hfit p hp)]
      rw [List.replicate_succ]
      show conv_out_bits q ((2 * (u % 2 ^ 32) + 0) % 2 ^ 32) ++
        (conv_steps q ((2 * (u % 2 ^ 32) + 0) % 2 ^ 32) (List.replicate k 0)).2 = _
      rw [hstep, hout]
      show _ = q.poly.map _ ++ conv_claim_tail q.poly (u <<< 1) k
      congr 1
      rw [ih (2 * u + 0), ← hsr]

theorem conv_claim_reg_replicate_zero (k : Nat) : ∀ u : Nat,
    conv_claim_reg u (List.replicate k 0) = u * 2 ^ k := by
  induction k with
  | zero => intro u; simp [conv_claim_reg]
  | succ k ih =>
      intro u
      rw [List.replicate_succ]
      show conv_claim_reg ((u <<< 1) ||| 0) (List.replicate k 0) = _
      rw [Nat.shiftLeft_eq, pow_one, mul_comm u 2, lor_two_mul_add u 0 (by omega),
        Nat.add_zero, ih]
      ring

/-- The encoder stream split into the claim-worded body, the
claim-worded flush tail and the byte-boundary padding. -/
theorem conv_stream_split (q : fec) (msg : List Nat)
    (hlen : q.poly.length = q.R) (hfit : ∀ p ∈ q.poly, p < 2 ^ 32) :
    conv_stream q msg =
      conv_claim_body q.poly 0 (msg_bits msg) ++
      conv_claim_tail q.poly (conv_claim_reg 0 (msg_bits msg)) (q.K - 1) ++
      List.replicate ((8 - (conv_body q msg).length % 8) % 8) 0 := by
  have hb0 := conv_steps_eq_claim q hlen hfit (msg_bits msg) 0 (msg_bits_lt msg)
  have hbody : (conv_steps q 0 (msg_bits msg)).2 = conv_claim_body q.poly 0 (msg_bits msg) := by
    have := hb0.1
    rwa [Nat.zero_mod] at this
  have hreg : (conv_steps q 0 (msg_bits msg)).1 = conv_claim_reg 0 (msg_bits msg) % 2 ^ 32 := by
    have := hb0.2
    rwa [Nat.zero_mod] at this
  rw [conv_stream]
  congr 1
  rw [conv_body, conv_steps_append q (msg_bits msg) (List.replicate (q.K - 1) 0) 0]
  show (conv_steps q 0 (msg_bits msg)).2 ++
    (conv_steps q (conv_steps q 0 (msg_bits msg)).1 (List.replicate (q.K - 1) 0)).2 = _
  rw [hbody, hreg,
    conv_claim_tail_eq q hlen hfit (q.K - 1) (conv_claim_reg 0 (msg_bits msg))]

/-! ## Bit extraction from packed bytes -/

theorem pack_extract (c : List Nat) : (∀ b ∈ c, b < 2) →
    ∀ j, j < c.length → (packbyte c >>> (c.length - 1 - j)) &&& 1 = c.getD j 0 := by
  induction c with
  | nil => intro _ j hj; simp at hj
  | cons b c ih =>
      intro hb j hj
      have hb2 : b < 2 := hb b (List.mem_cons_self _ _)
      have hP := packbyte_lt c (fun x hx => hb x (List.mem_cons_of_mem _ hx))
      have hpb : packbyte (b :: c) = b * 2 ^ c.length + packbyte c := by
        show c.foldl (fun x b => 2 * x + b) (2 * 0 + b) = _
        rw [packbyte_acc]
        ring_nf
      rw [hpb, Nat.and_one_is_mod, Nat.shiftRight_eq_div_pow]
      cases j with
      | zero =>
          have hs : (b :: c).length - 1 - 0 = c.length := by simp
          rw [hs]
          have hdiv : (b * 2 ^ c.length + packbyte c) / 2 ^ c.length = b := by
            rw [Nat.add_comm, Nat.add_mul_div_right _ _ (Nat.pos_pow_of_pos _ (by omega))]
            rw [Nat.div_eq_of_lt hP]
            omega
          rw [hdiv]
          show b % 2 = b
          omega
      | succ j =>
          have hjc : j < c.length := by
            simp at hj
            omega
          have hs : (b :: c).length - 1 - (j + 1) = c.length - 1 - j := by
            simp only [List.length_cons]
            omega
          rw [hs]
          have hsub : c.length - (c.length - 1 - j) = j + 1 := by omega
          have hpow : (2 : Nat) ^ c.length =
              2 ^ (c.length - 1 - j) * 2 ^ (j + 1) := by
            rw [← pow_add]
            congr 1
            omega
          have hdiv : (b * 2 ^ c.length + packbyte c) / 2 ^ (c.length - 1 - j) =
              packbyte c / 2 ^ (c.length - 1 - j) + b * 2 ^ (j + 1) := by
            rw [Nat.add_comm (b * 2 ^ c.length) (packbyte c), hpow]
            rw [show b * (2 ^ (c.length - 1 - j) * 2 ^ (j + 1)) =
              b * 2 ^ (j + 1) * 2 ^ (c.length - 1 - j) by ring]
            exact Nat.add_mul_div_right _ _ (Nat.pos_pow_of_pos _ (by omega))
          rw [hdiv]
          have heven : b * 2 ^ (j + 1) = 2 * (b * 2 ^ j) := by
            rw [pow_succ]
            ring
          have hmod : (packbyte c / 2 ^ (c.length - 1 - j) + b * 2 ^ (j + 1)) % 2 =
              (packbyte c / 2 ^ (c.length - 1 - j)) % 2 := by
            rw [heven]
            omega
          rw [hmod]
          have := ih (fun x hx => hb x (List.mem_cons_of_mem _ hx)) j hjc
          rw [Nat.and_one_is_mod, Nat.shiftRight_eq_div_pow] at this
          rw [this]
          rfl

theorem getD_cons_succ (a : Nat) (l : List Nat) (i : Nat) (d : Nat) :
    (a :: l).getD (i + 1) d = l.getD i d := rfl

theorem getD_drop (l : List Nat) (n i : Nat) :
    (l.drop n).getD i 0 = l.getD (n + i) 0 := by
  rw [List.getD_eq_getElem?_getD, List.getD_eq_getElem?_getD, List.getElem?_drop]

theorem getD_take (l : List Nat) (n i : Nat) (h1 : i < n) :
    (l.take n).getD i 0 = l.getD i 0 := by
  rw [List.getD_eq_getElem?_getD, List.getD_eq_getElem?_getD, List.getElem?_take,
    if_pos h1]

theorem byte_bits_packbyte (c : List Nat) (h8 : c.length = 8)
    (hb : ∀ b ∈ c, b < 2) : byte_bits (packbyte c) = c := by
  apply List.ext_getElem
  · rw [byte_bits_length, h8]
  · intro i h1 h2
    have hi : i < 8 := by rwa [byte_bits_length] at h1
    simp only [byte_bits, List.getElem_map, List.getElem_range]
    have hext := pack_extract c hb i (by omega)
    rw [h8] at hext
    have h78 : (8 : Nat) - 1 - i = 7 - i := by omega
    rw [h78] at hext
    rw [hext, List.getD_eq_getElem c 0 (by omega)]

set_option maxRecDepth 10000 in
theorem packbyte_byte_bits : ∀ B < 256, packbyte (byte_bits B) = B := by
  decide

theorem flatten_packBytes (L : Nat) : ∀ bits : List Nat, bits.length = L → 8 ∣ L →
    (∀ b ∈ bits, b < 2) → ((packBytes bits).map byte_bits).flatten = bits := by
  induction L using Nat.strong_induction_on with
  | _ L ih =>
      intro bits hL hdvd hb
      by_cases h : bits = []
      · subst h
        rw [packBytes_nil]
        rfl
      · have hlen0 : bits.length ≠ 0 := fun hc => h (List.eq_nil_of_length_eq_zero hc)
        have hlen8 : 8 ≤ bits.length := by
          rcases hdvd with ⟨w, rfl⟩
          omega
        have htake : (bits.take 8).length = 8 := by
          rw [List.length_take]
          omega
        rw [packBytes_cons _ h, List.map_cons, List.flatten_cons,
          byte_bits_packbyte _ htake (fun x hx => hb x (List.take_subset 8 bits hx)),
          ih (L - 8) (by omega) (bits.drop 8) (by simp; omega)
            (by rcases hdvd with ⟨w, rfl⟩; cases w with
              | zero => omega
              | succ w => exact ⟨w, by omega⟩)
            (fun x hx => hb x (List.drop_subset 8 bits hx)),
          List.take_append_drop]

theorem liquid_unpack_exact (P rest : List Nat) :
    liquid_unpack_bytes (P ++ rest) P.length = (P.map byte_bits).flatten := by
  rw [liquid_unpack_bytes]
  congr 1
  have := range_map_getD P 0 byte_bits
  rw [← this]
  apply List.map_congr_left
  intro i hi
  rw [List.mem_range] at hi
  rw [List.getD_append _ _ _ _ hi]

/-- Bit `i` of the emitted stream lands in bit position `7 - i % 8` of
output byte `i / 8`. -/
theorem packBytes_extract (L : Nat) : ∀ bits : List Nat, bits.length = L → 8 ∣ L →
    (∀ b ∈ bits, b < 2) → ∀ i < L,
    ((packBytes bits).getD (i / 8) 0 >>> (7 - i % 8)) &&& 1 = bits.getD i 0 := by
  induction L using Nat.strong_induction_on with
  | _ L ih =>
      intro bits hL hdvd hb i hi
      have hbne : bits ≠ [] := by
        intro hc
        subst hc
        simp at hL
        omega
      have hlen0 : bits.length ≠ 0 := fun hc => hbne (List.eq_nil_of_length_eq_zero hc)
      have hlen8 : 8 ≤ bits.length := by
        rcases hdvd with ⟨w, rfl⟩
        omega
      have htake : (bits.take 8).length = 8 := by
        rw [List.length_take]
        omega
      rw [packBytes_cons _ hbne]
      by_cases hi8 : i < 8
      · have hdiv : i / 8 = 0 := by omega
        have hmod : i % 8 = i := by omega
        rw [hdiv, hmod]
        show (packbyte (bits.take 8) >>> (7 - i)) &&& 1 = _
        have hext := pack_extract (bits.take 8)
          (fun x hx => hb x (List.take_subset 8 bits hx)) i (by omega)
        rw [htake] at hext
        have h78 : (8 : Nat) - 1 - i = 7 - i := by omega
        rw [h78] at hext
        rw [hext, getD_take _ _ _ hi8]
      · have hdiv : i / 8 = (i - 8) / 8 + 1 := by omega
        have hmod : i % 8 = (i - 8) % 8 := by omega
        rw [hdiv, hmod, getD_cons_succ]
        have := ih (L - 8) (by omega) (bits.drop 8) (by simp; omega)
          (by rcases hdvd with ⟨w, rfl⟩; cases w with
            | zero => omega
            | succ w => exact ⟨w, by omega⟩)
          (fun x hx => hb x (List.drop_subset 8 bits hx)) (i - 8) (by omega)
        rw [this, getD_drop]
        congr 1
        omega

theorem conv_claim_body_length (polys : List Nat) (bits : List Nat) : ∀ u : Nat,
    (conv_claim_body polys u bits).length = bits.length * polys.length := by
  induction bits with
  | nil => intro u; simp [conv_claim_body]
  | cons b bs ih =>
      intro u
      show (polys.map _ ++ conv_claim_body polys _ bs).length = _
      rw [List.length_append, List.length_map, ih, List.length_cons]
      ring

theorem conv_claim_tail_length (polys : List Nat) (k : Nat) : ∀ u : Nat,
    (conv_claim_tail polys u k).length = k * polys.length := by
  induction k with
  | zero => intro u; simp [conv_claim_tail]
  | succ k ih =>
      intro u
      show (polys.map _ ++ conv_claim_tail polys _ k).length = _
      rw [List.length_append, List.length_map, ih]
      ring

/-! ## Claim theorems: the encoder (C2, C3, C4, C10) -/

/-- C2: for every scheme parameters and every message length, encode
writes exactly `ceil(R * (8*n + K - 1) / 8)` output bytes: the final
bit counter `n` is 8 times that (the C assert), and the output buffer
consists of exactly that many written bytes followed by the untouched
remainder of the caller buffer. -/
theorem c2_encoded_length (q : fec) (msg : List Nat) (hK : 1 ≤ q.K) :
    (∀ buf : List Nat, (fec_conv_encode_run q msg buf).n =
      8 * ((q.R * (8 * msg.length + q.K - 1) + 7) / 8)) ∧
    (∀ buf : List Nat, (q.R * (8 * msg.length + q.K - 1) + 7) / 8 ≤ buf.length →
      ∃ written : List Nat,
        written.length = (q.R * (8 * msg.length + q.K - 1) + 7) / 8 ∧
        fec_conv_encode q msg buf =
          written ++ buf.drop ((q.R * (8 * msg.length + q.K - 1) + 7) / 8)) := by
  constructor
  · intro buf
    rw [fec_conv_encode_run_n, conv_stream_length q msg hK]
  · intro buf hbuf
    refine ⟨packBytes (conv_stream q msg), ?_, ?_⟩
    · rw [packBytes_length (conv_stream q msg).length _ rfl,
        conv_stream_length q msg hK]
      omega
    · exact fec_conv_encode_chars q msg buf hK hbuf

/-- C2 witness: sizes evaluated on the K=7, R=2 codec and a one-byte
message: 35 bits are emitted and padded to 4 bytes. -/
theorem c2_encoded_length_witness :
    1 ≤ q27sized.K ∧
    (fec_conv_encode_run q27sized [165] (List.replicate 4 0)).n =
      8 * ((q27sized.R * (8 * [165].length + q27sized.K - 1) + 7) / 8) :=
  ⟨by decide, (c2_encoded_length q27sized [165] (by decide)).1 (List.replicate 4 0)⟩

/-- C3: encoding starts from a zero register; for each input bit taken
MSB-first (`msg_bits`), the register is shifted left and ORed with the
bit, and one parity bit of `register AND polynomial` is emitted per
polynomial in declared order (`conv_claim_body`, input-bit-major,
polynomial-minor); the output buffer is the MSB-first packing of that
stream (followed by the flush tail and padding). -/
theorem c3_encode_bit_order (q : fec) (msg buf : List Nat) (hK : 1 ≤ q.K)
    (hlen : q.poly.length = q.R) (hfit : ∀ p ∈ q.poly, p < 2 ^ 32)
    (hbuf : (q.R * (8 * msg.length + q.K - 1) + 7) / 8 ≤ buf.length) :
    fec_conv_encode q msg buf =
      packBytes (conv_claim_body q.poly 0 (msg_bits msg) ++
        conv_claim_tail q.poly (conv_claim_reg 0 (msg_bits msg)) (q.K - 1) ++
        List.replicate ((8 - (conv_body q msg).length % 8) % 8) 0) ++
      buf.drop ((q.R * (8 * msg.length + q.K - 1) + 7) / 8) ∧
    (conv_claim_body q.poly 0 (msg_bits msg)).length = 8 * msg.length * q.R := by
  constructor
  · rw [← conv_stream_split q msg hlen hfit]
    exact fec_conv_encode_chars q msg buf hK hbuf
  · rw [conv_claim_body_length, msg_bits_length, hlen]

/-- C3 witness: evaluated on the K=7, R=2 codec and message byte 0xA5. -/
theorem c3_encode_bit_order_witness :
    1 ≤ q27sized.K ∧ q27sized.poly.length = q27sized.R ∧
    fec_conv_encode q27sized [165] (List.replicate 4 0) =
      packBytes (conv_claim_body q27sized.poly 0 (msg_bits [165]) ++
        conv_claim_tail q27sized.poly (conv_claim_reg 0 (msg_bits [165]))
          (q27sized.K - 1) ++
        List.replicate ((8 - (conv_body q27sized [165]).length % 8) % 8) 0) ++
      (List.replicate 4 0).drop
        ((q27sized.R * (8 * [165].length + q27sized.K - 1) + 7) / 8) :=
  ⟨by decide, by decide,
    (c3_encode_bit_order q27sized [165] (List.replicate 4 0) (by decide) (by decide)
      (by decide) (by decide)).1⟩

/-- C4: after the last input bit the encoder pushes exactly `K - 1`
zero bits through the register without consuming input
(`conv_claim_tail`, which emits `R` parity bits per flush step by the
same parity rule), leaving the effective trellis state
(`register mod 2^(K-1)`) zero, and then pads the output with fewer
than 8 zero bits up to the next whole byte boundary. -/
theorem c4_encode_flush (q : fec) (msg : List Nat) (hK : 1 ≤ q.K)
    (hlen : q.poly.length = q.R) (hfit : ∀ p ∈ q.poly, p < 2 ^ 32) :
    conv_stream q msg =
      conv_claim_body q.poly 0 (msg_bits msg) ++
        conv_claim_tail q.poly (conv_claim_reg 0 (msg_bits msg)) (q.K - 1) ++
        List.replicate ((8 - (conv_body q msg).length % 8) % 8) 0 ∧
    (conv_claim_tail q.poly (conv_claim_reg 0 (msg_bits msg)) (q.K - 1)).length =
      (q.K - 1) * q.R ∧
    conv_claim_reg (conv_claim_reg 0 (msg_bits msg)) (List.replicate (q.K - 1) 0) %
      2 ^ (q.K - 1) = 0 ∧
    (8 - (conv_body q msg).length % 8) % 8 < 8 ∧
    (conv_stream q msg).length % 8 = 0 := by
  refine ⟨conv_stream_split q msg hlen hfit, ?_, ?_, by omega, ?_⟩
  · rw [conv_claim_tail_length, hlen]
  · rw [conv_claim_reg_replicate_zero]
    exact Nat.mul_mod_left _ _
  · rw [conv_stream_length q msg hK]
    omega

/-- C4 witness: evaluated on the K=7, R=2 codec and message byte 0xA5;
the flush tail has 12 bits and the effective final state is zero. -/
theorem c4_encode_flush_witness :
    1 ≤ q27sized.K ∧
    (conv_claim_tail q27sized.poly (conv_claim_reg 0 (msg_bits [165]))
      (q27sized.K - 1)).length = (q27sized.K - 1) * q27sized.R ∧
    conv_claim_reg (conv_claim_reg 0 (msg_bits [165]))
      (List.replicate (q27sized.K - 1) 0) % 2 ^ (q27sized.K - 1) = 0 :=
  ⟨by decide,
    (c4_encode_flush q27sized [165] (by decide) (by decide) (by decide)).2.1,
    (c4_encode_flush q27sized [165] (by decide) (by decide) (by decide)).2.2.1⟩

/-- C10: the i-th emitted bit occupies bit position `7 - i % 8` of
output byte `i / 8`, and the written prefix of the output buffer is
fully determined (independent of the prior buffer contents). -/
theorem c10_msb_first_packing (q : fec) (msg buf : List Nat) (hK : 1 ≤ q.K)
    (hbuf : (q.R * (8 * msg.length + q.K - 1) + 7) / 8 ≤ buf.length) :
    (∀ i < (conv_stream q msg).length,
      ((fec_conv_encode q msg buf).getD (i / 8) 0 >>> (7 - i % 8)) &&& 1 =
        (conv_stream q msg).getD i 0) ∧
    (∀ buf2 : List Nat, (q.R * (8 * msg.length + q.K - 1) + 7) / 8 ≤ buf2.length →
      (fec_conv_encode q msg buf).take ((q.R * (8 * msg.length + q.K - 1) + 7) / 8) =
        (fec_conv_encode q msg buf2).take
          ((q.R * (8 * msg.length + q.K - 1) + 7) / 8)) := by
  have hsl := conv_stream_length q msg hK
  have hpl : (packBytes (conv_stream q msg)).length =
      (q.R * (8 * msg.length + q.K - 1) + 7) / 8 := by
    rw [packBytes_length (conv_stream q msg).length _ rfl, hsl]
    omega
  constructor
  · intro i hi
    rw [fec_conv_encode_chars q msg buf hK hbuf]
    have hi8 : i / 8 < (packBytes (conv_stream q msg)).length := by
      rw [hpl]
      omega
    rw [List.getD_append _ _ _ _ hi8]
    exact packBytes_extract (conv_stream q msg).length _ rfl ⟨_, hsl⟩
      (conv_stream_lt q msg) i hi
  · intro buf2 hbuf2
    rw [fec_conv_encode_chars q msg buf hK hbuf,
      fec_conv_encode_chars q msg buf2 hK hbuf2]
    rw [← hpl, List.take_left, List.take_left]

/-- C10 witness: bit 9 of the stream for message 0xA5 is bit position 6
of output byte 1, and the written 4-byte prefix does not depend on the
initial buffer contents. -/
theorem c10_msb_first_packing_witness :
    (((fec_conv_encode q27sized [165] (List.replicate 4 0)).getD (9 / 8) 0 >>>
        (7 - 9 % 8)) &&& 1 = (conv_stream q27sized [165]).getD 9 0) ∧
    (fec_conv_encode q27sized [165] (List.replicate 4 0)).take
        ((q27sized.R * (8 * [165].length + q27sized.K - 1) + 7) / 8) =
      (fec_conv_encode q27sized [165] (List.replicate 5 7)).take
        ((q27sized.R * (8 * [165].length + q27sized.K - 1) + 7) / 8) :=
  ⟨(c10_msb_first_packing q27sized [165] (List.replicate 4 0) (by decide)
      (by decide)).1 9 (by decide),
    (c10_msb_first_packing q27sized [165] (List.replicate 4 0) (by decide)
      (by decide)).2 (List.replicate 5 7) (by decide)⟩

/-! ## Congruence: encoder and decoder read only K, R, poly -/

theorem conv_emit_all_congr (q q' : fec) (hR : q.R = q'.R) (hp : q.poly = q'.poly) :
    conv_emit_all q = conv_emit_all q' :=
  funext fun st => by rw [conv_emit_all, conv_emit_all, hR, hp]

theorem conv_push_bit_congr (q q' : fec) (hR : q.R = q'.R) (hp : q.poly = q'.poly) :
    conv_push_bit q = conv_push_bit q' :=
  funext fun st => funext fun b => by
    rw [conv_push_bit, conv_push_bit, conv_emit_all_congr q q' hR hp]

theorem conv_push_byte_congr (q q' : fec) (hR : q.R = q'.R) (hp : q.poly = q'.poly) :
    conv_push_byte q = conv_push_byte q' :=
  funext fun st => funext fun B => by
    rw [conv_push_byte, conv_push_byte, conv_push_bit_congr q q' hR hp]

theorem conv_tail_step_congr (q q' : fec) (hR : q.R = q'.R) (hp : q.poly = q'.poly) :
    conv_tail_step q = conv_tail_step q' :=
  funext fun st => by rw [conv_tail_step, conv_tail_step, conv_emit_all_congr q q' hR hp]

/-- The encoder output is a function of (K, R, poly, message, buffer)
only: no other codec field influences it. -/
theorem fec_conv_encode_fields (q q' : fec) (hK : q.K = q'.K) (hR : q.R = q'.R)
    (hp : q.poly = q'.poly) (msg buf : List Nat) :
    fec_conv_encode q msg buf = fec_conv_encode q' msg buf := by
  rw [fec_conv_encode, fec_conv_encode, fec_conv_encode_run, fec_conv_encode_run,
    conv_push_byte_congr q q' hR hp, conv_tail_step_congr q q' hR hp, hK]

theorem branch_out_congr (q q' : fec) (hR : q.R = q'.R) (hp : q.poly = q'.poly) :
    branch_out q = branch_out q' :=
  funext fun s => funext fun b => by rw [branch_out, branch_out, hR, hp]

theorem viterbi_cand_congr (q q' : fec) (hR : q.R = q'.R) (hp : q.poly = q'.poly) :
    viterbi_cand q = viterbi_cand q' :=
  funext fun pm => funext fun g => funext fun p => funext fun b => by
    rw [viterbi_cand, viterbi_cand, branch_out_congr q q' hR hp]

theorem viterbi_step_congr (q q' : fec) (hK : q.K = q'.K) (hR : q.R = q'.R)
    (hp : q.poly = q'.poly) : viterbi_step q = viterbi_step q' :=
  funext fun pm => funext fun g => funext fun s => by
    show opt_min_tie0 (viterbi_cand q pm g (s / 2) (s % 2))
        (viterbi_cand q pm g (s / 2 + 2 ^ (q.K - 1) / 2) (s % 2)) =
      opt_min_tie0 (viterbi_cand q' pm g (s / 2) (s % 2))
        (viterbi_cand q' pm g (s / 2 + 2 ^ (q'.K - 1) / 2) (s % 2))
    rw [viterbi_cand_congr q q' hR hp, hK]

theorem update_viterbi_blk_congr (q q' : fec) (hK : q.K = q'.K) (hR : q.R = q'.R)
    (hp : q.poly = q'.poly) : update_viterbi_blk q = update_viterbi_blk q' :=
  funext fun syms => funext fun nbits => funext fun pm => by
    rw [update_viterbi_blk, update_viterbi_blk,
      viterbi_step_congr q q' hK hR hp, hR]

theorem chainback_viterbi_congr (q q' : fec) :
    chainback_viterbi q = chainback_viterbi q' := rfl

/-! ## Decode plumbing -/

/-- `fec_conv_decode` on a codec already sized to `n` skips the resize
and runs the post-resize pipeline directly. -/
theorem fec_conv_decode_eq_post (q : fec) (n : Nat) (enc : List Nat)
    (hn : q.num_dec_bytes = n) :
    fec_conv_decode q n enc = conv_decode_post q enc := by
  have hq1 : fec_conv_setlength q n = q := by
    rw [fec_conv_setlength, if_pos hn.symm]
  rw [fec_conv_decode, hq1]

/-- Decoding on an already-sized codec (`fec_conv_setlength`
early-return path): the codec is returned unchanged together with the
unpack, hard-decision scaling, reset, update, chainback pipeline. -/
theorem fec_conv_decode_ready (q : fec) (n : Nat) (enc : List Nat)
    (hn : q.num_dec_bytes = n) (hr : conv_ready q n) :
    fec_conv_decode q n enc =
      some (q, chainback_viterbi q
        (update_viterbi_blk q
          ((liquid_unpack_bytes enc ((q.R * (8 * n + q.K - 1) + 7) / 8)).map
            conv_softbit)
          (8 * n + q.K - 1) (init_viterbi 0))
        (8 * n) 0) := by
  obtain ⟨h1, h2, h3⟩ := hr
  rw [fec_conv_decode_eq_post q n enc hn, conv_decode_post, h1, h2, h3]
  show (if 8 * ((q.R * (8 * n + q.K - 1) + 7) / 8) ≤
      (q.R * (8 * n + q.K - 1) + 7) / 8 * 8 ∧ 8 * q.num_dec_bytes ≤ 8 * n then _ else _) = _
  rw [if_pos ⟨by omega, by omega⟩, hn]

/-- `fec_conv_setlength` on a new length produces a ready codec and
changes no scheme parameter. -/
theorem fec_conv_setlength_new (q : fec) (n : Nat) (hn : n ≠ q.num_dec_bytes)
    (hsch : fec_get_enc_msg_length q.scheme n = (q.R * (8 * n + q.K - 1) + 7) / 8) :
    (fec_conv_setlength q n).num_dec_bytes = n ∧
    conv_ready (fec_conv_setlength q n) n ∧
    (fec_conv_setlength q n).K = q.K ∧
    (fec_conv_setlength q n).R = q.R ∧
    (fec_conv_setlength q n).poly = q.poly ∧
    (fec_conv_setlength q n).scheme = q.scheme := by
  rw [fec_conv_setlength, if_neg hn]
  refine ⟨rfl, ⟨?_, ?_, rfl⟩, rfl, rfl, rfl, rfl⟩
  · show some (fec_get_enc_msg_length q.scheme n) = _
    rw [hsch]
  · show some (fec_get_enc_msg_length q.scheme n * 8) = _
    rw [hsch]

/-! ## Claim theorems: facade state (C7, C8, C6) -/

/-- C7: `fec_conv_setlength` returns early when the requested length
equals the stored one, leaving the codec (all fields) unchanged; it
re-creates the Viterbi decoder and reallocates the bit buffer exactly
when the length differs; and it is idempotent. -/
theorem c7_setlength_idempotent (q : fec) (n : Nat) :
    (n = q.num_dec_bytes → fec_conv_setlength q n = q) ∧
    (n ≠ q.num_dec_bytes →
      (fec_conv_setlength q n).num_dec_bytes = n ∧
      (fec_conv_setlength q n).num_enc_bytes =
        some (fec_get_enc_msg_length q.scheme n) ∧
      (fec_conv_setlength q n).vp = some (8 * n) ∧
      (fec_conv_setlength q n).enc_bits =
        some (fec_get_enc_msg_length q.scheme n * 8) ∧
      (fec_conv_setlength q n).scheme = q.scheme ∧
      (fec_conv_setlength q n).K = q.K ∧
      (fec_conv_setlength q n).R = q.R ∧
      (fec_conv_setlength q n).poly = q.poly) ∧
    fec_conv_setlength (fec_conv_setlength q n) n = fec_conv_setlength q n := by
  refine ⟨?_, ?_, ?_⟩
  · intro h
    rw [fec_conv_setlength, if_pos h]
  · intro h
    rw [fec_conv_setlength, if_neg h]
    exact ⟨rfl, rfl, rfl, rfl, rfl, rfl, rfl, rfl⟩
  · by_cases h : n = q.num_dec_bytes
    · have e : fec_conv_setlength q n = q := by rw [fec_conv_setlength, if_pos h]
      rw [e]
      exact e
    · have hdec : (fec_conv_setlength q n).num_dec_bytes = n := by
        rw [fec_conv_setlength, if_neg h]
      conv_lhs => rw [fec_conv_setlength]
      rw [if_pos hdec.symm]

/-- C7 witness: resizing the sized codec to its current length 0 is the
identity; resizing to 5 allocates a Viterbi decoder for 40 frame
bits. -/
theorem c7_setlength_idempotent_witness :
    fec_conv_setlength q27sized 0 = q27sized ∧
    (fec_conv_setlength q27sized 5).vp = some (8 * 5) :=
  ⟨(c7_setlength_idempotent q27sized 0).1 (by decide),
    ((c7_setlength_idempotent q27sized 5).2.1 (by decide)).2.2.1⟩

/-- C8 counterexample: for the invalid scheme id, `fec_conv_create`
does not return an error to the caller - it terminates the process
(`exit(1)`), refuting the claim as stated. -/
theorem c8_counterexample :
    fec_conv_create [109, 79] [] [] [] fec_scheme.FEC_UNKNOWN =
      CreateResult.processExit 1 := rfl

/-- C8 amended: an invalid scheme id is detected at construction time,
but the code terminates the process with `exit(1)` instead of returning
an error; every valid conv scheme id constructs successfully; and
neither encode nor decode inspects the scheme id at per-call time
(encode ignores it entirely, and decode on a sized codec succeeds
whatever the scheme field holds). -/
theorem c8_scheme_error_at_create (p27 p29 p39 p615 : List Nat) :
    (fec_conv_create p27 p29 p39 p615 .FEC_UNKNOWN = .processExit 1) ∧
    (∀ fs : fec_scheme, fs ≠ .FEC_UNKNOWN →
      ∃ qq : fec, fec_conv_create p27 p29 p39 p615 fs = .ok qq) ∧
    (∀ (s : fec_scheme) (q : fec) (msg buf : List Nat),
      fec_conv_encode { q with scheme := s } msg buf = fec_conv_encode q msg buf) ∧
    (∀ (s : fec_scheme) (q : fec) (n : Nat) (enc : List Nat),
      q.num_dec_bytes = n → conv_ready q n →
      (fec_conv_decode { q with scheme := s } n enc).isSome) := by
  refine ⟨rfl, ?_, ?_, ?_⟩
  · intro fs hfs
    cases fs with
    | FEC_CONV_V27 => exact ⟨_, rfl⟩
    | FEC_CONV_V29 => exact ⟨_, rfl⟩
    | FEC_CONV_V39 => exact ⟨_, rfl⟩
    | FEC_CONV_V615 => exact ⟨_, rfl⟩
    | FEC_UNKNOWN => exact absurd rfl hfs
  · intro s q msg buf
    exact fec_conv_encode_fields _ _ rfl rfl rfl msg buf
  · intro s q n enc hn hr
    rw [fec_conv_decode_ready { q with scheme := s } n enc hn hr]
    rfl

/-- C8 witness: the amended behavior evaluated at the V27 scheme and
the sized codec. -/
theorem c8_scheme_error_at_create_witness :
    fec_conv_create [109, 79] [] [] [] .FEC_UNKNOWN = .processExit 1 ∧
    (fec_conv_decode { q27sized with scheme := .FEC_UNKNOWN } 0 []).isSome :=
  ⟨(c8_scheme_error_at_create [109, 79] [] [] []).1,
    (c8_scheme_error_at_create [109, 79] [] [] []).2.2.2 .FEC_UNKNOWN q27sized 0 []
      (by decide) (by decide)⟩

/-- C6 (code bug): on a freshly created codec, `fec_conv_decode` with
decoded length 0 hits the `fec_conv_setlength` early return (the
constructor initializes `num_dec_bytes` to 0), so `num_enc_bytes` is
still uninitialized and `enc_bits`/`vp` are still NULL when
`liquid_unpack_bytes` and the Viterbi core are called: undefined
behavior (`none`), not the claimed empty message. -/
theorem c6_fresh_decode_zero_crashes (p27 p29 p39 p615 : List Nat) (qq : fec)
    (h : fec_conv_create p27 p29 p39 p615 .FEC_CONV_V27 = .ok qq)
    (enc : List Nat) :
    fec_conv_decode qq 0 enc = none := by
  have hq : qq = fec_conv_init_v27 p27
      { scheme := .FEC_CONV_V27, R := 0, K := 0, poly := [],
        num_dec_bytes := 0, num_enc_bytes := none,
        enc_bits := none, vp := none } := by
    cases h
    rfl
  subst hq
  rfl

/-- C6 witness: the crash evaluated on the concrete fresh V27 codec. -/
theorem c6_fresh_decode_zero_crashes_witness :
    fec_conv_decode q27fresh 0 [] = none :=
  c6_fresh_decode_zero_crashes [109, 79] [] [] [] q27fresh rfl []

theorem setlength_num_dec_bytes (q : fec) (n : Nat) :
    (fec_conv_setlength q n).num_dec_bytes = n := by
  rw [fec_conv_setlength]
  split
  · omega
  · rfl

theorem setlength_idem (q : fec) (n : Nat) :
    fec_conv_setlength (fec_conv_setlength q n) n = fec_conv_setlength q n := by
  conv_lhs => rw [fec_conv_setlength]
  rw [if_pos (setlength_num_dec_bytes q n).symm]

theorem fec_conv_decode_via_setlength (q : fec) (n : Nat) (enc : List Nat) :
    fec_conv_decode q n enc = fec_conv_decode (fec_conv_setlength q n) n enc := by
  rw [fec_conv_decode, fec_conv_decode, setlength_idem]

/-- A successful `conv_decode_post` always returns its own codec. -/
theorem conv_decode_post_some (q1 : fec) (enc : List Nat) (q2 : fec)
    (out : List Nat) (h : conv_decode_post q1 enc = some (q2, out)) : q2 = q1 := by
  rw [conv_decode_post] at h
  split at h
  · split at h
    · simp only [Option.some.injEq, Prod.mk.injEq] at h
      exact h.1.symm
    · cases h
  · cases h

/-- A successful decode call leaves the codec in a state on which the
same call succeeds again with the same output. -/
theorem fec_conv_decode_second (q : fec) (n : Nat) (enc : List Nat) (q' : fec)
    (out : List Nat) (h : fec_conv_decode q n enc = some (q', out)) :
    q' = fec_conv_setlength q n ∧ fec_conv_decode q' n enc = some (q', out) := by
  rw [fec_conv_decode] at h
  have hq' : q' = fec_conv_setlength q n := conv_decode_post_some _ enc q' out h
  subst hq'
  refine ⟨rfl, ?_⟩
  rw [fec_conv_decode_eq_post _ n enc (setlength_num_dec_bytes q n)]
  exact h

theorem liquid_unpack_bytes_length (bytes : List Nat) (nb : Nat) :
    (liquid_unpack_bytes bytes nb).length = 8 * nb := by
  rw [liquid_unpack_bytes, List.length_flatten, List.map_map]
  have : ((List.range nb).map (List.length ∘ fun i => byte_bits (bytes.getD i 0))) =
      (List.range nb).map (fun _ => 8) := by
    apply List.map_congr_left
    intro i _
    exact byte_bits_length _
  rw [this]
  have h2 : ∀ m : Nat, ((List.range m).map (fun _ => (8 : Nat))).sum = 8 * m := by
    intro m
    induction m with
    | zero => rfl
    | succ m ih =>
        rw [List.range_succ, List.map_append, List.sum_append, ih]
        simp
        ring
  exact h2 nb

theorem conv_softbit_cases (b : Nat) :
    conv_softbit b = FEC_SOFTBIT_0 ∨ conv_softbit b = FEC_SOFTBIT_1 := by
  rw [conv_softbit]
  by_cases h : b ≠ 0
  · right; rw [if_pos h]
  · left; rw [if_neg h]

/-! ## Claim theorems: decode structure (C5) and determinism (C9) -/

/-- C5: a decode call for decoded length `n` (after the early-return or
reallocating resize) unpacks the encoded bytes into one symbol per bit
(`8 * num_enc_bytes` symbols), maps each to exactly one of the two
fixed sentinel magnitudes, then runs reset (`init_viterbi 0`), the
path-metric update over exactly `8*n + K - 1` symbol groups, and
chainback of `8*n` bits from the all-zero terminal state, in that
order. -/
theorem c5_decode_pipeline (q : fec) (n : Nat) (enc : List Nat)
    (hsch : fec_get_enc_msg_length q.scheme n = (q.R * (8 * n + q.K - 1) + 7) / 8)
    (hready : q.num_dec_bytes = n → conv_ready q n) :
    fec_conv_decode q n enc =
      some (fec_conv_setlength q n, chainback_viterbi q
        (update_viterbi_blk q
          ((liquid_unpack_bytes enc ((q.R * (8 * n + q.K - 1) + 7) / 8)).map
            conv_softbit)
          (8 * n + q.K - 1) (init_viterbi 0))
        (8 * n) 0) ∧
    (liquid_unpack_bytes enc ((q.R * (8 * n + q.K - 1) + 7) / 8)).length =
      8 * ((q.R * (8 * n + q.K - 1) + 7) / 8) ∧
    ∀ b ∈ (liquid_unpack_bytes enc ((q.R * (8 * n + q.K - 1) + 7) / 8)).map
        conv_softbit, b = FEC_SOFTBIT_0 ∨ b = FEC_SOFTBIT_1 := by
  refine ⟨?_, liquid_unpack_bytes_length _ _, ?_⟩
  · by_cases hn : q.num_dec_bytes = n
    · have hq1 : fec_conv_setlength q n = q := by
        rw [fec_conv_setlength, if_pos hn.symm]
      rw [hq1]
      exact fec_conv_decode_ready q n enc hn (hready hn)
    · obtain ⟨hdec, hr1, hK1, hR1, hp1, _⟩ :=
        fec_conv_setlength_new q n (fun hc => hn hc.symm) hsch
      rw [fec_conv_decode_via_setlength,
        fec_conv_decode_ready (fec_conv_setlength q n) n enc hdec hr1,
        hK1, hR1,
        update_viterbi_blk_congr (fec_conv_setlength q n) q hK1 hR1 hp1,
        chainback_viterbi_congr (fec_conv_setlength q n) q]
  · intro b hb
    rw [List.mem_map] at hb
    obtain ⟨x, _, rfl⟩ := hb
    exact conv_softbit_cases x

/-- C5 witness: evaluated on the sized K=7, R=2 codec at decoded length
0 with the 2-byte flush-only encoding. -/
theorem c5_decode_pipeline_witness :
    fec_conv_decode q27sized 0 [0, 0] =
      some (fec_conv_setlength q27sized 0, chainback_viterbi q27sized
        (update_viterbi_blk q27sized
          ((liquid_unpack_bytes [0, 0]
            ((q27sized.R * (8 * 0 + q27sized.K - 1) + 7) / 8)).map conv_softbit)
          (8 * 0 + q27sized.K - 1) (init_viterbi 0))
        (8 * 0) 0) :=
  (c5_decode_pipeline q27sized 0 [0, 0] (by decide) (fun _ => by decide)).1

/-- C9: encoding is a pure function of (K, R, poly, message, buffer) -
no other codec field influences it and the codec is not mutated (the
embedding returns only the buffer) - and decoding is deterministic
across sequential calls on a reused codec: after a successful call, the
same call on the returned codec succeeds with the identical output and
leaves the codec unchanged. -/
theorem c9_pure_deterministic :
    (∀ (q q' : fec) (msg buf : List Nat), q.K = q'.K → q.R = q'.R →
      q.poly = q'.poly →
      fec_conv_encode q msg buf = fec_conv_encode q' msg buf) ∧
    (∀ (q q' q'' : fec) (n : Nat) (enc out out' : List Nat),
      fec_conv_decode q n enc = some (q', out) →
      fec_conv_decode q' n enc = some (q'', out') →
      q'' = q' ∧ out' = out) := by
  constructor
  · intro q q' msg buf hK hR hp
    exact fec_conv_encode_fields q q' hK hR hp msg buf
  · intro q q' q'' n enc out out' h1 h2
    obtain ⟨_, hsecond⟩ := fec_conv_decode_second q n enc q' out h1
    rw [hsecond] at h2
    simp only [Option.some.injEq, Prod.mk.injEq] at h2
    exact ⟨h2.1.symm, h2.2.symm⟩

/-- C9 witness: two sequential decode calls with identical inputs on
the reused sized codec produce identical outputs, and encode ignores
the mutable state fields. -/
theorem c9_pure_deterministic_witness :
    fec_conv_encode q27sized [165] (List.replicate 4 0) =
      fec_conv_encode q27fresh [165] (List.replicate 4 0) ∧
    (q27sized = q27sized ∧ ([] : List Nat) = []) :=
  ⟨(c9_pure_deterministic).1 q27sized q27fresh [165] (List.replicate 4 0)
      (by decide) (by decide) (by decide),
    (c9_pure_deterministic).2 q27sized q27sized q27sized 0 [0, 0] [] []
      (by decide) (by decide)⟩

/-! ## Viterbi decoding of an uncorrupted stream: candidate and
branch-metric facts -/

theorem opt_min_tie0_cases (a b : Option (Nat × List Nat)) (c : Nat × List Nat)
    (h : opt_min_tie0 a b = some c) : a = some c ∨ b = some c := by
  match a, b with
  | none, o => exact Or.inr h
  | some c₁, none => exact Or.inl h
  | some c₁, some c₂ =>
      revert h
      show (if c₁.1 ≤ c₂.1 then some c₁ else some c₂) = some c → _
      split
      · intro h; exact Or.inl h
      · intro h; exact Or.inr h

theorem opt_min_tie0_first (P : Nat × List Nat) (hP : P.1 = 0)
    (b : Option (Nat × List Nat)) : opt_min_tie0 (some P) b = some P := by
  match b with
  | none => rfl
  | some c₂ =>
      show (if P.1 ≤ c₂.1 then some P else some c₂) = some P
      rw [if_pos (by omega)]

theorem opt_min_tie0_second (a : Option (Nat × List Nat)) (P : Nat × List Nat)
    (hP : P.1 = 0) (ha : ∀ c : Nat × List Nat, a = some c → 1 ≤ c.1) :
    opt_min_tie0 a (some P) = some P := by
  match a with
  | none => rfl
  | some c₁ =>
      have h1 := ha c₁ rfl
      show (if c₁.1 ≤ P.1 then some c₁ else some P) = some P
      rw [if_neg (by omega)]

theorem viterbi_cand_inv (q : fec) (pm : PathMetrics) (g : List Nat) (p b : Nat)
    (m : Nat) (path : List Nat) (h : viterbi_cand q pm g p b = some (m, path)) :
    ∃ mp pp, pm p = some (mp, pp) ∧
      m = mp + branch_metric (branch_out q p b) g ∧ path = b :: pp := by
  rcases hp : pm p with _ | ⟨mp, pp⟩
  · rw [viterbi_cand, hp] at h
    cases h
  · rw [viterbi_cand, hp] at h
    replace h : some (mp + branch_metric (branch_out q p b) g, b :: pp) =
        some (m, path) := h
    simp only [Option.some.injEq, Prod.mk.injEq] at h
    exact ⟨mp, pp, rfl, h.1.symm, h.2.symm⟩

theorem viterbi_cand_of_pm (q : fec) (pm : PathMetrics) (g : List Nat) (p b : Nat)
    (mp : Nat) (pp : List Nat) (hp : pm p = some (mp, pp)) :
    viterbi_cand q pm g p b =
      some (mp + branch_metric (branch_out q p b) g, b :: pp) := by
  rw [viterbi_cand, hp]

theorem viterbi_cand_none (q : fec) (pm : PathMetrics) (g : List Nat) (p b : Nat)
    (hp : pm p = none) : viterbi_cand q pm g p b = none := by
  rw [viterbi_cand, hp]

theorem branch_out_length (q : fec) (s b : Nat) : (branch_out q s b).length = q.R := by
  simp [branch_out]

theorem branch_out_getElem (q : fec) (s b : Nat) (r : Nat)
    (hr : r < (branch_out q s b).length) :
    (branch_out q s b)[r] = parity ((2 * s + b) &&& q.poly.getD r 0) := by
  simp [branch_out]

theorem branch_out_lt (q : fec) (s b : Nat) : ∀ x ∈ branch_out q s b, x < 2 := by
  intro x hx
  simp only [branch_out, List.mem_map] at hx
  obtain ⟨r, _, rfl⟩ := hx
  exact parity_lt_two _

/-- The metric of the true branch against its own hard-decision symbols
is zero. -/
theorem branch_metric_self (e : List Nat) :
    branch_metric e (e.map conv_softbit) = 0 := by
  rw [branch_metric, List.zipWith_map_right, List.zipWith_same,
    List.sum_eq_zero_iff]
  intro x hx
  rw [List.mem_map] at hx
  obtain ⟨y, _, rfl⟩ := hx
  by_cases hy : y = 0
  · subst hy
    simp [conv_softbit]
  · simp [conv_softbit, hy]

/-- A zero branch metric forces every expected bit to match the
observed hard decision. -/
theorem branch_metric_zero_pointwise (e o : List Nat)
    (h : branch_metric e o = 0) (i : Nat) (hi : i < e.length) (ho : i < o.length) :
    (if (if e[i] = 0 then FEC_SOFTBIT_0 else FEC_SOFTBIT_1) = o[i] then 0 else 1) =
      (0 : Nat) := by
  rw [branch_metric, List.sum_eq_zero_iff] at h
  have hlen : i < (List.zipWith
      (fun e o => if (if e = 0 then FEC_SOFTBIT_0 else FEC_SOFTBIT_1) = o
        then 0 else 1) e o).length := by
    rw [List.length_zipWith]
    omega
  have hmem := List.getElem_mem hlen
  rw [List.getElem_zipWith] at hmem
  exact h _ hmem

/-- Two branch bits under two distinct sentinels: a zero metric of one
branch against the hard decisions of another forces the input bits to
agree, as soon as some generator polynomial is odd. -/
theorem branch_bit_determined (q : fec) (s β b : Nat) (hβ : β < 2) (hb : b < 2)
    (hodd : ∃ r, r < q.R ∧ (q.poly.getD r 0) % 2 = 1)
    (h : branch_metric (branch_out q s β) ((branch_out q s b).map conv_softbit) = 0) :
    β = b := by
  obtain ⟨r, hrR, hoddr⟩ := hodd
  have hre : r < (branch_out q s β).length := by rw [branch_out_length]; exact hrR
  have hro : r < ((branch_out q s b).map conv_softbit).length := by
    rw [List.length_map, branch_out_length]
    exact hrR
  have hpt := branch_metric_zero_pointwise _ _ h r hre hro
  rw [branch_out_getElem q s β r hre] at hpt
  have hmapr : ((branch_out q s b).map conv_softbit)[r] =
      conv_softbit (parity ((2 * s + b) &&& q.poly.getD r 0)) := by
    rw [List.getElem_map, branch_out_getElem]
  rw [hmapr] at hpt
  have hpar : parity ((2 * s + β) &&& q.poly.getD r 0) =
      parity ((2 * s + b) &&& q.poly.getD r 0) := by
    have h1 := parity_lt_two ((2 * s + β) &&& q.poly.getD r 0)
    have h2 := parity_lt_two ((2 * s + b) &&& q.poly.getD r 0)
    set x := parity ((2 * s + β) &&& q.poly.getD r 0) with hx
    set y := parity ((2 * s + b) &&& q.poly.getD r 0) with hy
    by_contra hne
    interval_cases x <;> interval_cases y <;>
      simp [conv_softbit, FEC_SOFTBIT_0, FEC_SOFTBIT_1] at hpt hne ⊢
  by_contra hne
  have hd := parity_distinguish hoddr s
  interval_cases β <;> interval_cases b <;> simp_all [Nat.add_zero]

/-- One `update` step on the uncorrupted received group: the true
successor state gets metric 0 with the extended survivor path, and it
is the only state with metric 0. -/
theorem viterbi_step_true (q : fec) (hK : 2 ≤ q.K)
    (hodd : ∃ r, r < q.R ∧ (q.poly.getD r 0) % 2 = 1)
    (pm : PathMetrics) (s₀ : Nat) (pref : List Nat) (b : Nat) (hb : b < 2)
    (hs : s₀ < 2 ^ (q.K - 1))
    (hpm : pm s₀ = some (0, pref))
    (huniq : ∀ s, s < 2 ^ (q.K - 1) → ∀ m path, pm s = some (m, path) → m = 0 →
      s = s₀ ∧ path = pref) :
    viterbi_step q pm ((branch_out q s₀ b).map conv_softbit)
      ((2 * s₀ + b) % 2 ^ (q.K - 1)) = some (0, b :: pref) ∧
    (∀ s, s < 2 ^ (q.K - 1) → ∀ m path,
      viterbi_step q pm ((branch_out q s₀ b).map conv_softbit) s = some (m, path) →
      m = 0 → s = (2 * s₀ + b) % 2 ^ (q.K - 1) ∧ path = b :: pref) := by
  have hm2ex : 2 ^ (q.K - 1) = 2 * 2 ^ (q.K - 2) := by
    have h1 : q.K - 1 = (q.K - 2) + 1 := by omega
    rw [h1, pow_succ]
    ring
  set M := 2 ^ (q.K - 1) with hMdef
  set m2 := 2 ^ (q.K - 2) with hm2def
  have hMm2 : M = 2 * m2 := hm2ex
  have hm21 : 1 ≤ m2 := Nat.one_le_two_pow
  have hMpos : 0 < M := by omega
  have hdvd2M : (2 : Nat) ∣ M := ⟨m2, hMm2⟩
  have hMdiv2 : M / 2 = m2 := by omega
  set g := (branch_out q s₀ b).map conv_softbit with hgdef
  set s' := (2 * s₀ + b) % M with hsprimeq
  have hs'lt : s' < M := Nat.mod_lt _ hMpos
  have hbit : s' % 2 = b := by
    rw [hsprimeq, Nat.mod_mod_of_dvd _ hdvd2M]
    omega
  have hbm0 : branch_metric (branch_out q s₀ b) g = 0 := branch_metric_self _
  have hcommon : ∀ p, p < M → ∀ β, β < 2 → ∀ path,
      viterbi_cand q pm g p β = some (0, path) →
      p = s₀ ∧ β = b ∧ path = b :: pref := by
    intro p hpM β hβ2 path hc
    obtain ⟨mp, pp, hpmval, hmsum, hpath⟩ := viterbi_cand_inv q pm g p β 0 path hc
    have hmp : mp = 0 := by omega
    have hbmz : branch_metric (branch_out q p β) g = 0 := by omega
    obtain ⟨hps, hpps⟩ := huniq p hpM mp pp hpmval hmp
    have hβ : β = b := by
      apply branch_bit_determined q s₀ β b hβ2 hb hodd
      rw [hgdef] at hbmz
      rw [hps] at hbmz
      exact hbmz
    exact ⟨hps, hβ, by rw [hpath, hβ, hpps]⟩
  constructor
  · show opt_min_tie0 (viterbi_cand q pm g (s' / 2) (s' % 2))
      (viterbi_cand q pm g (s' / 2 + M / 2) (s' % 2)) = some (0, b :: pref)
    rw [hbit, hMdiv2]
    by_cases hcase : 2 * s₀ + b < M
    · have hseq : s' = 2 * s₀ + b := by
        rw [hsprimeq, Nat.mod_eq_of_lt hcase]
      have hp0 : s' / 2 = s₀ := by omega
      rw [hp0, viterbi_cand_of_pm q pm g s₀ b 0 pref hpm, hbm0]
      exact opt_min_tie0_first (0 + 0, b :: pref) rfl _
    · have hseq : s' = 2 * s₀ + b - M := by
        rw [hsprimeq, Nat.mod_eq_sub_mod (by omega), Nat.mod_eq_of_lt (by omega)]
      have hp1 : s' / 2 + m2 = s₀ := by omega
      have hp0ne : s' / 2 ≠ s₀ := by omega
      have hp0M : s' / 2 < M := by omega
      rw [hp1, viterbi_cand_of_pm q pm g s₀ b 0 pref hpm, hbm0]
      apply opt_min_tie0_second _ _ rfl
      intro c hc
      rcases hpm0 : pm (s' / 2) with _ | ⟨m0, p0path⟩
      · rw [viterbi_cand_none q pm g _ _ hpm0] at hc
        cases hc
      · rw [viterbi_cand_of_pm q pm g _ _ _ _ hpm0] at hc
        replace hc : c = (m0 + branch_metric (branch_out q (s' / 2) b) g,
            b :: p0path) := by
          injection hc with hc
          exact hc.symm
        rw [hc]
        show 1 ≤ m0 + _
        by_contra hlt
        have hm00 : m0 = 0 := by omega
        obtain ⟨heq, _⟩ := huniq (s' / 2) hp0M m0 p0path hpm0 hm00
        exact hp0ne heq
  · intro s hsM m path hstep hm
    subst hm
    replace hstep : opt_min_tie0 (viterbi_cand q pm g (s / 2) (s % 2))
        (viterbi_cand q pm g (s / 2 + M / 2) (s % 2)) = some (0, path) := hstep
    rw [hMdiv2] at hstep
    have hsdiv : s / 2 < m2 := by omega
    have hrec := Nat.div_add_mod s 2
    rcases opt_min_tie0_cases _ _ _ hstep with hc | hc
    · obtain ⟨hps, hβ, hpath⟩ :=
        hcommon (s / 2) (by omega) (s % 2) (by omega) path hc
      refine ⟨?_, hpath⟩
      have h2 : 2 * s₀ + b = s := by omega
      rw [hsprimeq, h2, Nat.mod_eq_of_lt hsM]
    · obtain ⟨hps, hβ, hpath⟩ :=
        hcommon (s / 2 + m2) (by omega) (s % 2) (by omega) path hc
      refine ⟨?_, hpath⟩
      have h2 : 2 * s₀ + b = s + M := by omega
      rw [hsprimeq, h2, Nat.add_mod_right, Nat.mod_eq_of_lt hsM]

theorem trellis_path_nil (M s : Nat) : trellis_path M s [] = s := rfl

theorem trellis_path_cons (M s b : Nat) (bs : List Nat) :
    trellis_path M s (b :: bs) = trellis_path M ((2 * s + b) % M) bs := rfl

/-- Running the decoder over the uncorrupted symbol groups of the true
path: the true final state carries metric 0 and the reversed true input
bits, and no other state has metric 0. -/
theorem viterbi_run_true (q : fec) (hK : 2 ≤ q.K)
    (hodd : ∃ r, r < q.R ∧ (q.poly.getD r 0) % 2 = 1)
    (bs : List Nat) : ∀ (s₀ : Nat) (pm : PathMetrics) (pref : List Nat),
    (∀ x ∈ bs, x < 2) → s₀ < 2 ^ (q.K - 1) →
    pm s₀ = some (0, pref) →
    (∀ s, s < 2 ^ (q.K - 1) → ∀ m path, pm s = some (m, path) → m = 0 →
      s = s₀ ∧ path = pref) →
    (((trellis_groups q s₀ bs).map (List.map conv_softbit)).foldl
        (viterbi_step q) pm) (trellis_path (2 ^ (q.K - 1)) s₀ bs) =
      some (0, bs.reverse ++ pref) ∧
    (∀ s, s < 2 ^ (q.K - 1) → ∀ m path,
      (((trellis_groups q s₀ bs).map (List.map conv_softbit)).foldl
        (viterbi_step q) pm) s = some (m, path) → m = 0 →
      s = trellis_path (2 ^ (q.K - 1)) s₀ bs ∧ path = bs.reverse ++ pref) := by
  induction bs with
  | nil =>
      intro s₀ pm pref _ hs hpm huniq
      constructor
      · show pm (trellis_path (2 ^ (q.K - 1)) s₀ []) = _
        rw [trellis_path_nil]
        simpa using hpm
      · intro s hsM m path hp hm
        obtain ⟨h1, h2⟩ := huniq s hsM m path hp hm
        rw [trellis_path_nil]
        exact ⟨h1, by simpa using h2⟩
  | cons b bs ih =>
      intro s₀ pm pref hbs hs hpm huniq
      have hb : b < 2 := hbs b (List.mem_cons_self _ _)
      obtain ⟨hstep1, hstep2⟩ := viterbi_step_true q hK hodd pm s₀ pref b hb hs hpm huniq
      have hs1 : (2 * s₀ + b) % 2 ^ (q.K - 1) < 2 ^ (q.K - 1) :=
        Nat.mod_lt _ (Nat.pos_pow_of_pos _ (by omega))
      obtain ⟨ih1, ih2⟩ := ih ((2 * s₀ + b) % 2 ^ (q.K - 1))
        (viterbi_step q pm ((branch_out q s₀ b).map conv_softbit)) (b :: pref)
        (fun x hx => hbs x (List.mem_cons_of_mem _ hx)) hs1 hstep1 hstep2
      constructor
      · simp only [trellis_groups, List.map_cons, List.foldl_cons, trellis_path_cons]
        rw [ih1]
        simp
      · intro s hsM m path hp hm
        simp only [trellis_groups, List.map_cons, List.foldl_cons] at hp
        obtain ⟨h1, h2⟩ := ih2 s hsM m path hp hm
        rw [trellis_path_cons]
        refine ⟨h1, ?_⟩
        rw [h2]
        simp

/-! ## Bridges: the decode pipeline over the encoder output equals the
trellis-group fold over the true path -/

theorem update_viterbi_blk_eq_foldl (q : fec) (syms : List Nat) (nbits : Nat)
    (pm : PathMetrics) :
    update_viterbi_blk q syms nbits pm =
      ((List.range nbits).map (fun t => (List.range q.R).map
        (fun r => syms.getD (t * q.R + r) 0))).foldl (viterbi_step q) pm := by
  rw [update_viterbi_blk, List.foldl_map]

theorem flatten_group_getD (R : Nat) (gs : List (List Nat)) :
    ∀ (rest : List Nat) (t r : Nat), (∀ g ∈ gs, g.length = R) → t < gs.length →
    r < R →
    (gs.flatten ++ rest).getD (t * R + r) 0 = (gs.getD t []).getD r 0 := by
  induction gs with
  | nil => intro rest t r _ ht _; simp at ht
  | cons g gs ih =>
      intro rest t r hlen ht hr
      have hg : g.length = R := hlen g (List.mem_cons_self _ _)
      cases t with
      | zero =>
          rw [List.flatten_cons, List.append_assoc]
          have hidx : 0 * R + r = r := by omega
          rw [hidx, List.getD_append _ _ _ _ (by omega)]
          rfl
      | succ t =>
          rw [List.flatten_cons, List.append_assoc,
            List.getD_append_right _ _ _ _ (by
              rw [hg]
              have : (t + 1) * R = t * R + R := by ring
              omega)]
          have hidx : (t + 1) * R + r - g.length = t * R + r := by
            rw [hg]
            have : (t + 1) * R = t * R + R := by ring
            omega
          rw [hidx, ih rest t r (fun x hx => hlen x (List.mem_cons_of_mem _ hx))
            (by simpa using ht) hr]
          rfl

theorem groups_of_flatten (q : fec) (gs : List (List Nat)) (rest : List Nat)
    (hlen : ∀ g ∈ gs, g.length = q.R) :
    (List.range gs.length).map (fun t => (List.range q.R).map
      (fun r => (gs.flatten ++ rest).getD (t * q.R + r) 0)) = gs := by
  apply List.ext_getElem
  · simp
  · intro t h1 h2
    simp only [List.getElem_map, List.getElem_range]
    have hgt : gs.getD t [] = gs[t] := List.getD_eq_getElem gs [] h2
    apply List.ext_getElem
    · simp only [List.length_map, List.length_range]
      exact (hlen gs[t] (List.getElem_mem h2)).symm
    · intro r hr1 hr2
      simp only [List.getElem_map, List.getElem_range]
      have hrR : r < q.R := by simpa using hr1
      rw [flatten_group_getD q.R gs rest t r hlen h2 hrR, hgt,
        List.getD_eq_getElem gs[t] 0 hr2]

theorem trellis_groups_length (q : fec) (bs : List Nat) : ∀ s : Nat,
    (trellis_groups q s bs).length = bs.length := by
  induction bs with
  | nil => intro s; rfl
  | cons b bs ih =>
      intro s
      show (trellis_groups q s (b :: bs)).length = bs.length + 1
      rw [trellis_groups, List.length_cons, ih]

theorem trellis_groups_each_length (q : fec) (bs : List Nat) : ∀ s : Nat,
    ∀ g ∈ trellis_groups q s bs, g.length = q.R := by
  induction bs with
  | nil => intro s g hg; simp [trellis_groups] at hg
  | cons b bs ih =>
      intro s g hg
      rw [trellis_groups, List.mem_cons] at hg
      rcases hg with hg | hg
      · rw [hg, branch_out_length]
      · exact ih _ g hg

theorem trellis_outs_eq_flatten (q : fec) (bs : List Nat) : ∀ s : Nat,
    trellis_outs q s bs = (trellis_groups q s bs).flatten := by
  induction bs with
  | nil => intro s; rfl
  | cons b bs ih =>
      intro s
      rw [trellis_outs, trellis_groups, List.flatten_cons, ih]

theorem two_mul_mod_pow_le (d e u b : Nat) (he : e ≤ d + 1) :
    (2 * (u % 2 ^ d) + b) % 2 ^ e = (2 * u + b) % 2 ^ e := by
  have key : 2 * u + b = 2 ^ (d + 1) * (u / 2 ^ d) + (2 * (u % 2 ^ d) + b) := by
    have h1 := Nat.div_add_mod u (2 ^ d)
    rw [pow_succ]
    set A := u / 2 ^ d
    set B := u % 2 ^ d
    rw [← h1]
    ring
  obtain ⟨c, hc⟩ : (2 : Nat) ^ e ∣ 2 ^ (d + 1) := pow_dvd_pow 2 he
  rw [key, hc, Nat.mul_assoc, Nat.mul_add_mod]

theorem land_word_reduce (K : Nat) (hK : 1 ≤ K) (hK32 : K ≤ 32) (p : Nat)
    (hp : p < 2 ^ K) (u b : Nat) :
    ((2 * u + b) % 2 ^ 32) &&& p = (2 * (u % 2 ^ (K - 1)) + b) &&& p := by
  have hp32 : p < 2 ^ 32 := lt_of_lt_of_le hp (Nat.pow_le_pow_right (by omega) hK32)
  rw [land_mod_two_pow hp32]
  rw [← land_mod_two_pow hp (2 * u + b), ← land_mod_two_pow hp (2 * (u % 2 ^ (K - 1)) + b)]
  have hKe : K - 1 + 1 = K := by omega
  have := two_mul_mod_pow_le (K - 1) K u b (by omega)
  rw [this]

theorem conv_steps_eq_trellis (q : fec) (hK : 2 ≤ q.K) (hK32 : q.K ≤ 32)
    (hfit : ∀ p ∈ q.poly, p < 2 ^ q.K) (bs : List Nat) : ∀ u : Nat,
    (conv_steps q (u % 2 ^ 32) bs).2 = trellis_outs q (u % 2 ^ (q.K - 1)) bs := by
  have hpfit : ∀ r : Nat, q.poly.getD r 0 < 2 ^ q.K := by
    intro r
    by_cases hr : r < q.poly.length
    · rw [List.getD_eq_getElem _ _ hr]
      exact hfit _ (List.getElem_mem hr)
    · rw [List.getD_eq_default _ _ (by omega)]
      exact Nat.pos_pow_of_pos _ (by omega)
  induction bs with
  | nil => intro u; rfl
  | cons b bs ih =>
      intro u
      show conv_out_bits q ((2 * (u % 2 ^ 32) + b) % 2 ^ 32) ++
        (conv_steps q ((2 * (u % 2 ^ 32) + b) % 2 ^ 32) bs).2 = _
      rw [mod_word_step u b]
      have hout : conv_out_bits q ((2 * u + b) % 2 ^ 32) =
          branch_out q (u % 2 ^ (q.K - 1)) b := by
        rw [conv_out_bits, branch_out]
        apply List.map_congr_left
        intro r _
        rw [land_word_reduce q.K (by omega) hK32 _ (hpfit r) u b]
      rw [hout, ih (2 * u + b)]
      show _ = branch_out q (u % 2 ^ (q.K - 1)) b ++
        trellis_outs q ((2 * (u % 2 ^ (q.K - 1)) + b) % 2 ^ (q.K - 1)) bs
      rw [two_mul_mod_pow_le (q.K - 1) (q.K - 1) u b (by omega)]

theorem conv_body_eq_flatten (q : fec) (msg : List Nat) (hK : 2 ≤ q.K)
    (hK32 : q.K ≤ 32) (hfit : ∀ p ∈ q.poly, p < 2 ^ q.K) :
    conv_body q msg =
      (trellis_groups q 0 (msg_bits msg ++ List.replicate (q.K - 1) 0)).flatten := by
  rw [conv_body]
  have h0 := conv_steps_eq_trellis q hK hK32 hfit
    (msg_bits msg ++ List.replicate (q.K - 1) 0) 0
  rw [Nat.zero_mod] at h0
  rw [h0, trellis_outs_eq_flatten, Nat.zero_mod]

theorem trellis_path_append (M s : Nat) (xs ys : List Nat) :
    trellis_path M s (xs ++ ys) = trellis_path M (trellis_path M s xs) ys :=
  List.foldl_append ..

theorem trellis_path_lt (M : Nat) (hM : 0 < M) (bs : List Nat) : ∀ s : Nat, s < M →
    trellis_path M s bs < M := by
  induction bs with
  | nil => intro s hs; exact hs
  | cons b bs ih =>
      intro s hs
      rw [trellis_path_cons]
      exact ih _ (Nat.mod_lt _ hM)

theorem trellis_path_replicate_zero (M : Nat) (hM : 0 < M) (k : Nat) :
    ∀ s : Nat, s < M → trellis_path M s (List.replicate k 0) = (s * 2 ^ k) % M := by
  induction k with
  | zero =>
      intro s hs
      show s = s * 2 ^ 0 % M
      simp [Nat.mod_eq_of_lt hs]
  | succ k ih =>
      intro s hs
      rw [List.replicate_succ, trellis_path_cons, ih _ (Nat.mod_lt _ hM)]
      have h1 : (2 * s + 0) % M * 2 ^ k % M = (2 * s + 0) * 2 ^ k % M :=
        Nat.mod_mul_mod
      rw [h1]
      congr 1
      rw [pow_succ]
      ring

theorem packBytes_msg_bits (msg : List Nat) (hmsg : ∀ B ∈ msg, B < 256) :
    packBytes (msg_bits msg) = msg := by
  induction msg with
  | nil => rfl
  | cons B ms ih =>
      have hne : byte_bits B ++ msg_bits ms ≠ [] := by
        intro hc
        have := congrArg List.length hc
        simp [byte_bits_length] at this
      rw [msg_bits_cons, packBytes_cons _ hne]
      have ht : (byte_bits B ++ msg_bits ms).take 8 = byte_bits B := by
        conv_lhs => rw [show (8 : Nat) = (byte_bits B).length from (byte_bits_length B).symm]
        exact List.take_left _ _
      have hd : (byte_bits B ++ msg_bits ms).drop 8 = msg_bits ms := by
        conv_lhs => rw [show (8 : Nat) = (byte_bits B).length from (byte_bits_length B).symm]
        exact List.drop_left _ _
      rw [ht, hd, ih (fun x hx => hmsg x (List.mem_cons_of_mem _ hx)),
        packbyte_byte_bits B (hmsg B (List.mem_cons_self _ _))]

/-- Decode on a codec that is either freshly resizable or already
correctly sized: the setlength result plus the Viterbi pipeline. -/
theorem fec_conv_decode_sized (q : fec) (n : Nat) (enc : List Nat)
    (hsch : fec_get_enc_msg_length q.scheme n = (q.R * (8 * n + q.K - 1) + 7) / 8)
    (hready : q.num_dec_bytes = n → conv_ready q n) :
    fec_conv_decode q n enc =
      some (fec_conv_setlength q n, chainback_viterbi q
        (update_viterbi_blk q
          ((liquid_unpack_bytes enc ((q.R * (8 * n + q.K - 1) + 7) / 8)).map
            conv_softbit)
          (8 * n + q.K - 1) (init_viterbi 0))
        (8 * n) 0) := by
  by_cases hn : q.num_dec_bytes = n
  · have hq1 : fec_conv_setlength q n = q := by
      rw [fec_conv_setlength, if_pos hn.symm]
    rw [hq1]
    exact fec_conv_decode_ready q n enc hn (hready hn)
  · obtain ⟨hdec, hr1, hK1, hR1, hp1, _⟩ :=
      fec_conv_setlength_new q n (fun hc => hn hc.symm) hsch
    rw [fec_conv_decode_via_setlength,
      fec_conv_decode_ready (fec_conv_setlength q n) n enc hdec hr1,
      hK1, hR1,
      update_viterbi_blk_congr (fec_conv_setlength q n) q hK1 hR1 hp1,
      chainback_viterbi_congr (fec_conv_setlength q n) q]

/-- C1: for every scheme satisfying the catalog invariants (K at least
2 and at most the 32-bit register width, R polynomials each fitting in
K bits, at least one polynomial odd) and every byte message, decoding
the uncorrupted encoder output with the original length recovers the
message exactly. -/
theorem c1_roundtrip (q : fec) (msg buf : List Nat)
    (hK : 2 ≤ q.K) (hK32 : q.K ≤ 32)
    (hlen : q.poly.length = q.R)
    (hfit : ∀ p ∈ q.poly, p < 2 ^ q.K)
    (hodd : ∃ p ∈ q.poly, p % 2 = 1)
    (hmsg : ∀ B ∈ msg, B < 256)
    (hbuf : (q.R * (8 * msg.length + q.K - 1) + 7) / 8 ≤ buf.length)
    (hsch : fec_get_enc_msg_length q.scheme msg.length =
      (q.R * (8 * msg.length + q.K - 1) + 7) / 8)
    (hready : q.num_dec_bytes = msg.length → conv_ready q msg.length) :
    fec_conv_decode q msg.length (fec_conv_encode q msg buf) =
      some (fec_conv_setlength q msg.length, msg) := by
  have hK1 : 1 ≤ q.K := by omega
  have hMpos : 0 < 2 ^ (q.K - 1) := Nat.pos_pow_of_pos _ (by omega)
  have hoddidx : ∃ r, r < q.R ∧ (q.poly.getD r 0) % 2 = 1 := by
    obtain ⟨p, hpmem, hpodd⟩ := hodd
    obtain ⟨i, hi, hip⟩ := List.getElem_of_mem hpmem
    refine ⟨i, by rw [hlen] at hi; exact hi, ?_⟩
    rw [List.getD_eq_getElem _ _ hi, hip]
    exact hpodd
  rw [fec_conv_encode_chars q msg buf hK1 hbuf,
    fec_conv_decode_sized q msg.length _ hsch hready]
  refine congrArg some (congrArg (Prod.mk (fec_conv_setlength q msg.length)) ?_)
  have hpl : (packBytes (conv_stream q msg)).length =
      (q.R * (8 * msg.length + q.K - 1) + 7) / 8 := by
    rw [packBytes_length (conv_stream q msg).length _ rfl,
      conv_stream_length q msg hK1]
    omega
  have hunp : liquid_unpack_bytes
      (packBytes (conv_stream q msg) ++
        buf.drop ((q.R * (8 * msg.length + q.K - 1) + 7) / 8))
      ((q.R * (8 * msg.length + q.K - 1) + 7) / 8) = conv_stream q msg := by
    conv_lhs => rw [← hpl]
    rw [liquid_unpack_exact]
    exact flatten_packBytes (conv_stream q msg).length _ rfl
      ⟨_, conv_stream_length q msg hK1⟩ (conv_stream_lt q msg)
  rw [hunp]
  set bs := msg_bits msg ++ List.replicate (q.K - 1) 0 with hbsdef
  have hbs2 : ∀ x ∈ bs, x < 2 := by
    intro x hx
    rcases List.mem_append.mp hx with hx | hx
    · exact msg_bits_lt msg x hx
    · rw [List.eq_of_mem_replicate hx]
      omega
  have hbslen : bs.length = 8 * msg.length + q.K - 1 := by
    rw [hbsdef, List.length_append, msg_bits_length, List.length_replicate]
    omega
  have hsoft : (conv_stream q msg).map conv_softbit =
      ((trellis_groups q 0 bs).map (List.map conv_softbit)).flatten ++
        (List.replicate ((8 - (conv_body q msg).length % 8) % 8) 0).map
          conv_softbit := by
    rw [conv_stream, List.map_append, conv_body_eq_flatten q msg hK hK32 hfit,
      List.map_flatten]
  have hgrplen : ∀ g ∈ (trellis_groups q 0 bs).map (List.map conv_softbit),
      g.length = q.R := by
    intro g hg
    rw [List.mem_map] at hg
    obtain ⟨g', hg', rfl⟩ := hg
    rw [List.length_map]
    exact trellis_groups_each_length q bs 0 g' hg'
  have hglen : ((trellis_groups q 0 bs).map (List.map conv_softbit)).length =
      8 * msg.length + q.K - 1 := by
    rw [List.length_map, trellis_groups_length, hbslen]
  have hupd : update_viterbi_blk q ((conv_stream q msg).map conv_softbit)
      (8 * msg.length + q.K - 1) (init_viterbi 0) =
      ((trellis_groups q 0 bs).map (List.map conv_softbit)).foldl (viterbi_step q)
        (init_viterbi 0) := by
    rw [update_viterbi_blk_eq_foldl, hsoft]
    conv_lhs =>
      rw [show 8 * msg.length + q.K - 1 =
        ((trellis_groups q 0 bs).map (List.map conv_softbit)).length
        from hglen.symm]
    rw [groups_of_flatten q _ _ hgrplen]
  rw [hupd]
  have hinit1 : init_viterbi 0 0 = some (0, []) := by
    rw [init_viterbi, if_pos rfl]
  have hiuniq : ∀ s, s < 2 ^ (q.K - 1) → ∀ m path,
      init_viterbi 0 s = some (m, path) → m = 0 → s = 0 ∧ path = [] := by
    intro s _ m path h hm
    rw [init_viterbi] at h
    by_cases hs : s = 0
    · subst hs
      rw [if_pos rfl] at h
      simp only [Option.some.injEq, Prod.mk.injEq] at h
      exact ⟨rfl, h.2.symm⟩
    · rw [if_neg hs] at h
      cases h
  obtain ⟨hfin, _⟩ := viterbi_run_true q hK hoddidx bs 0 (init_viterbi 0) []
    hbs2 hMpos hinit1 hiuniq
  have hst : trellis_path (2 ^ (q.K - 1)) 0 bs = 0 := by
    rw [hbsdef, trellis_path_append,
      trellis_path_replicate_zero _ hMpos _ _
        (trellis_path_lt _ hMpos _ 0 hMpos)]
    exact Nat.mul_mod_left _ _
  rw [hst] at hfin
  rw [chainback_viterbi, hfin]
  show packBytes (((bs.reverse ++ []).reverse).take (8 * msg.length)) = msg
  rw [List.append_nil, List.reverse_reverse, hbsdef]
  conv_lhs =>
    rw [show 8 * msg.length = (msg_bits msg).length from (msg_bits_length msg).symm]
  rw [List.take_left, packBytes_msg_bits msg hmsg]

/-- C1 witness: roundtrip hypotheses discharged on the K=7, R=2 catalog
codec with the one-byte message 0xA5. -/
theorem c1_roundtrip_witness :
    fec_conv_decode q27sized [165].length
        (fec_conv_encode q27sized [165] (List.replicate 4 0)) =
      some (fec_conv_setlength q27sized 1, [165]) :=
  c1_roundtrip q27sized [165] (List.replicate 4 0) (by decide) (by decide)
    (by decide) (by decide) (by decide) (by decide) (by decide) (by decide)
    (by decide)

end FecConv
